import Mathlib

/-!
Import details to JSON lines: a shallow embedding.

The Go package `imports2jsonl` maps the import specs of parsed Go files to
flat records and writes one JSON object per import and per line.

Conventions of the embedding:

* a Go pointer `*T` is `Option T` (`none` is the nil pointer);
* a Go slice is `Slice α` : the nil slice, or a non-nil slice with its elements;
* a Go `string` is a Lean `String` (Go source text is UTF-8 and the only byte
  the package inspects, the double quote, is ASCII);
* Go `int` and `token.Pos` are `Int`;
* a run-time panic is the `Except.error` side of `Exec`;
* `go/token`, `go/ast`, `strings`, `slices`, `iter` and `encoding/json` are
  libraries outside the package: the parts the package calls are modelled from
  their documented behaviour.
-/

namespace Imports2jsonl

/-! ## Go run-time model -/

/-- Run-time failures of a Go program -/
inductive Panic where
  | nilDereference : Panic
deriving DecidableEq, Repr

/-- Computations that may panic -/
abbrev Exec (α : Type) : Type := Except Panic α

/-- Go slice values: the nil slice or a non-nil slice holding its elements -/
inductive Slice (α : Type) where
  | null : Slice α
  | mk (elems : List α) : Slice α
deriving DecidableEq, Repr

namespace Slice

/-- The elements of a slice in index order; the nil slice has none -/
def toList {α : Type} : Slice α → List α
  | null => []
  | mk elems => elems

/-- Go `len` -/
def len {α : Type} (s : Slice α) : Nat := s.toList.length

/-- Go `s == nil` -/
def isNil {α : Type} : Slice α → Bool
  | null => true
  | mk _ => false

/-- Go `make([]T, 0, n)`: a non-nil slice of length zero -/
def make0 {α : Type} : Slice α := mk []

/-- Go `append(s, x)`: the result is never nil -/
def append {α : Type} (s : Slice α) (x : α) : Slice α := mk (s.toList ++ [x])

end Slice

/-! ## go/token -/

namespace token

/-- Go `token.Pos` -/
abbrev Pos : Type := Int

/-- Go `token.NoPos` -/
def NoPos : Pos := 0

/-- Go `token.Position` -/
structure Position where
  Filename : String
  Offset : Int
  Line : Int
  Column : Int
deriving DecidableEq, Repr

/-- A non-nil `*token.FileSet`, seen through its `Position` method -/
structure FileSet where
  Position : Pos → Position

/-- The literal kinds an `ast.BasicLit` carries, among Go `token.Token` -/
inductive Token where
  | INT : Token
  | FLOAT : Token
  | IMAG : Token
  | CHAR : Token
  | STRING : Token
deriving DecidableEq, Repr

/-- Go `token.Token.String` on the literal kinds -/
def Token.String : Token → String
  | INT => "INT"
  | FLOAT => "FLOAT"
  | IMAG => "IMAG"
  | CHAR => "CHAR"
  | STRING => "STRING"

end token

/-! ## go/ast -/

namespace ast

/-- Go `ast.Comment` -/
structure Comment where
  Slash : token.Pos
  Text : String
deriving DecidableEq, Repr

/-- Go `ast.CommentGroup` -/
structure CommentGroup where
  List : Slice (Option Comment)
deriving DecidableEq, Repr

/-- Go `ast.Ident` -/
structure Ident where
  NamePos : token.Pos
  Name : String
deriving DecidableEq, Repr

/-- Go `ast.BasicLit` -/
structure BasicLit where
  ValuePos : token.Pos
  Kind : token.Token
  Value : String
deriving DecidableEq, Repr

/-- Go `ast.ImportSpec` -/
structure ImportSpec where
  Doc : Option CommentGroup
  Name : Option Ident
  Path : Option BasicLit
  Comment : Option CommentGroup
  EndPos : token.Pos
deriving DecidableEq, Repr

/-- Go `ast.File`, with the fields the package reads -/
structure File where
  Package : token.Pos
  Imports : Slice (Option ImportSpec)
deriving DecidableEq, Repr

end ast

/-! ## strings -/

namespace strings

/-- Go `strings.Trim`: all leading and trailing code points of `s` that occur
in `cutset` are removed -/
def Trim (s cutset : String) : String :=
  String.mk (((s.data.dropWhile (fun c => decide (c ∈ cutset.data))).rdropWhile
    (fun c => decide (c ∈ cutset.data))))

end strings

/-- The double-quote character -/
def quoteChar : Char := Char.ofNat 34

/-- The one-character string holding a double quote, the cutset of
`RawBasicLit.Dto` -/
def quote : String := String.singleton quoteChar

/-- The one-character string holding a backquote, the delimiter of Go raw
string literals -/
def backquote : String := String.singleton (Char.ofNat 96)

/-- The string of `n` double quotes -/
def quotes (n : Nat) : String := String.mk (List.replicate n quoteChar)

/-! ## Records -/

/-- Go `CommentDto` -/
structure CommentDto where
  Slash : Int
  Text : String
deriving DecidableEq, Repr

/-- Go `CommentGroupDto` -/
structure CommentGroupDto where
  List : Slice CommentDto
deriving DecidableEq, Repr

/-- Go `IdentDto` -/
structure IdentDto where
  Name : String
deriving DecidableEq, Repr

/-- Go `PositionDto` -/
structure PositionDto where
  Filename : String
  Offset : Int
  Line : Int
  Column : Int
deriving DecidableEq, Repr

/-- Go `BasicLitDto` -/
structure BasicLitDto where
  ValuePos : PositionDto
  Kind : String
  Value : String
deriving DecidableEq, Repr

/-- Go `ImportSpecDto` -/
structure ImportSpecDto where
  Doc : CommentGroupDto
  Name : IdentDto
  Path : BasicLitDto
  Comment : CommentGroupDto
deriving DecidableEq, Repr

/-- Go zero value `CommentDto{}` -/
def CommentDto.zero : CommentDto := ⟨0, ""⟩

/-- Go zero value `CommentGroupDto{}`: its `List` is the nil slice -/
def CommentGroupDto.zero : CommentGroupDto := ⟨Slice.null⟩

/-- Go zero value `IdentDto{}` -/
def IdentDto.zero : IdentDto := ⟨""⟩

/-- Go zero value `PositionDto{}` -/
def PositionDto.zero : PositionDto := ⟨"", 0, 0, 0⟩

/-- Go zero value `BasicLitDto{}` -/
def BasicLitDto.zero : BasicLitDto := ⟨PositionDto.zero, "", ""⟩

/-- Go zero value `ImportSpecDto{}` -/
def ImportSpecDto.zero : ImportSpecDto :=
  ⟨CommentGroupDto.zero, IdentDto.zero, BasicLitDto.zero, CommentGroupDto.zero⟩

/-! ## Node-to-record mappers -/

/-- Go `type RawPosition token.Position` -/
structure RawPosition where
  pos : token.Position

/-- Go `RawPosition.Dto`: the field-by-field conversion -/
def RawPosition.Dto (r : RawPosition) : PositionDto :=
  ⟨r.pos.Filename, r.pos.Offset, r.pos.Line, r.pos.Column⟩

/-- Go `type RawComment struct{ *ast.Comment }` -/
structure RawComment where
  Comment : Option ast.Comment

/-- Go `RawComment.Text` -/
def RawComment.Text (c : RawComment) : String :=
  match c.Comment with
  | none => ""
  | some cm => cm.Text

/-- Go `RawComment.Slash` -/
def RawComment.Slash (c : RawComment) : Int :=
  match c.Comment with
  | none => 0
  | some cm => cm.Slash

/-- Go `RawComment.Dto` -/
def RawComment.Dto (c : RawComment) : CommentDto :=
  ⟨c.Slash, c.Text⟩

/-- Go `type RawCommentGroup struct{ *ast.CommentGroup }` -/
structure RawCommentGroup where
  CommentGroup : Option ast.CommentGroup

/-- Go `RawCommentGroup.List` -/
def RawCommentGroup.List (g : RawCommentGroup) : Slice (Option ast.Comment) :=
  match g.CommentGroup with
  | none => Slice.null
  | some cg => cg.List

/-- Go `RawCommentGroup.Dto`: the loop appends one record per comment to
`make([]CommentDto, 0, len)` -/
def RawCommentGroup.Dto (g : RawCommentGroup) : CommentGroupDto :=
  match g.CommentGroup with
  | none => CommentGroupDto.zero
  | some cg =>
    ⟨cg.List.toList.foldl (fun list c => list.append (RawComment.Dto ⟨c⟩)) Slice.make0⟩

/-- Go `type RawIdent struct{ *ast.Ident }` -/
structure RawIdent where
  Ident : Option ast.Ident

/-- Go `RawIdent.Name` -/
def RawIdent.Name (i : RawIdent) : String :=
  match i.Ident with
  | none => ""
  | some id => id.Name

/-- Go `RawIdent.Dto` -/
def RawIdent.Dto (i : RawIdent) : IdentDto :=
  match i.Ident with
  | none => IdentDto.zero
  | some id => ⟨id.Name⟩

/-- Go `type RawBasicLit struct{ *ast.BasicLit }` -/
structure RawBasicLit where
  BasicLit : Option ast.BasicLit

/-- Go `RawBasicLit.ValuePos` -/
def RawBasicLit.ValuePos (b : RawBasicLit) : Int :=
  match b.BasicLit with
  | none => 0
  | some lit => lit.ValuePos

/-- Go `RawBasicLit.Kind` -/
def RawBasicLit.Kind (b : RawBasicLit) : String :=
  match b.BasicLit with
  | none => ""
  | some lit => lit.Kind.String

/-- Go `RawBasicLit.Value` -/
def RawBasicLit.Value (b : RawBasicLit) : String :=
  match b.BasicLit with
  | none => ""
  | some lit => lit.Value

/-- Go `RawBasicLit.Dto` -/
def RawBasicLit.Dto (b : RawBasicLit) (fset : token.FileSet) : BasicLitDto :=
  match b.BasicLit with
  | none => BasicLitDto.zero
  | some lit =>
    ⟨RawPosition.Dto ⟨fset.Position lit.ValuePos⟩, lit.Kind.String, strings.Trim lit.Value quote⟩

/-- Go `type RawImportSpec struct{ *ast.ImportSpec }` -/
structure RawImportSpec where
  ImportSpec : Option ast.ImportSpec

/-- Go `RawImportSpec.Doc` -/
def RawImportSpec.Doc (i : RawImportSpec) : RawCommentGroup :=
  match i.ImportSpec with
  | none => ⟨none⟩
  | some spec => ⟨spec.Doc⟩

/-- Go `RawImportSpec.Name` -/
def RawImportSpec.Name (i : RawImportSpec) : RawIdent :=
  match i.ImportSpec with
  | none => ⟨none⟩
  | some spec => ⟨spec.Name⟩

/-- Go `RawImportSpec.Path` -/
def RawImportSpec.Path (i : RawImportSpec) : RawBasicLit :=
  match i.ImportSpec with
  | none => ⟨none⟩
  | some spec => ⟨spec.Path⟩

/-- Go `RawImportSpec.Comment` -/
def RawImportSpec.Comment (i : RawImportSpec) : RawCommentGroup :=
  match i.ImportSpec with
  | none => ⟨none⟩
  | some spec => ⟨spec.Comment⟩

/-- Go `RawImportSpec.EndPos` -/
def RawImportSpec.EndPos (i : RawImportSpec) : Int :=
  match i.ImportSpec with
  | none => 0
  | some spec => spec.EndPos

/-- Go `RawImportSpec.Dto` -/
def RawImportSpec.Dto (i : RawImportSpec) (fset : token.FileSet) : ImportSpecDto :=
  match i.ImportSpec with
  | none => ImportSpecDto.zero
  | some _ => ⟨i.Doc.Dto, i.Name.Dto, i.Path.Dto fset, i.Comment.Dto⟩

/-! ## iter and slices -/

/-- Go `Iter[T]` (an `iter.Seq[T]`): the items the sequence pushes, in order;
producing an item may panic -/
abbrev Iter (α : Type) : Type := List (Exec α)

/-- Go `Iter.Raw`: the same sequence under its library type -/
def Iter.Raw {α : Type} (i : Iter α) : Iter α := i

namespace slices

/-- Go `slices.Values`: the elements of the slice in index order -/
def Values {α : Type} (s : Slice α) : Iter α := s.toList.map Except.ok

/-- The loop of `slices.Collect` (`slices.AppendSeq`): each item is taken in
turn and appended to the slice built so far -/
def Collect.loop {α : Type} : Slice α → Iter α → Exec (Slice α)
  | acc, [] => Except.ok acc
  | acc, item :: rest =>
    match item with
    | Except.error p => Except.error p
    | Except.ok v => Collect.loop (acc.append v) rest

/-- Go `slices.Collect`: appends the items of the sequence to the nil slice -/
def Collect {α : Type} (seq : Iter α) : Exec (Slice α) := Collect.loop Slice.null seq

end slices

/-- Go `IterMap`: the mapper is applied to each item as the original sequence
produces it -/
def IterMap {α β : Type} (original : Iter α) (mapper : α → Exec β) : Iter β :=
  original.map (fun item => item.bind mapper)

/-! ## File and pass extractors -/

/-- Go `FileDto` -/
structure FileDto where
  Name : String
  Imports : Slice ImportSpecDto
deriving DecidableEq, Repr

/-- Go `type RawFile struct{ *ast.File }` -/
structure RawFile where
  File : Option ast.File

/-- Go `RawFile.Imports` -/
def RawFile.Imports (f : RawFile) : Slice (Option ast.ImportSpec) :=
  match f.File with
  | none => Slice.null
  | some file => file.Imports

/-- Go `RawFile.Name`: `f.File.Package` is read without a nil check -/
def RawFile.Name (f : RawFile) (fset : token.FileSet) : Exec String :=
  match f.File with
  | none => Except.error Panic.nilDereference
  | some file => Except.ok (fset.Position file.Package).Filename

/-- Go `RawFile.Dto`: the fields of the literal are evaluated in order -/
def RawFile.Dto (f : RawFile) (fset : token.FileSet) : Exec FileDto :=
  (f.Name fset).bind (fun name =>
    (slices.Collect
      (IterMap (slices.Values f.Imports)
        (fun original => Except.ok (RawImportSpec.Dto ⟨original⟩ fset))).Raw).bind
      (fun imports => Except.ok ⟨name, imports⟩))

namespace analysis

/-- Go `analysis.Pass`, with the fields the package reads -/
structure Pass where
  Fset : token.FileSet
  Files : Slice (Option ast.File)

end analysis

/-- Go `type RawPass struct{ *analysis.Pass }` -/
structure RawPass where
  Pass : Option analysis.Pass

/-- Go `RawPass.Files` -/
def RawPass.Files (p : RawPass) : Slice (Option ast.File) :=
  match p.Pass with
  | none => Slice.null
  | some pass => pass.Files

/-- Go `PassDto` -/
structure PassDto where
  Files : Slice FileDto
deriving DecidableEq, Repr

/-- Go `RawPass.Dto`: `p.Pass.Fset` is read inside the mapper, once per file -/
def RawPass.Dto (p : RawPass) : Exec PassDto :=
  (slices.Collect
    (IterMap (slices.Values p.Files)
      (fun original =>
        match p.Pass with
        | none => Except.error Panic.nilDereference
        | some pass => RawFile.Dto ⟨original⟩ pass.Fset)).Raw).bind
    (fun files => Except.ok ⟨files⟩)

/-! ## encoding/json -/

namespace json

/-- The digits of `encoding/json` for `\u00xx` escapes -/
def hex : List Char := "0123456789abcdef".data

/-- The `n`-th hexadecimal digit -/
def hexDigit (n : Nat) : Char := hex.getD n (Char.ofNat 48)

/-- The backslash character -/
def backslash : Char := Char.ofNat 92

/-- Membership in `htmlSafeSet` of `encoding/json`: the ASCII characters from
the space on, without the double quote, the backslash and the characters
`<`, `>`, `&` -/
def htmlSafe (c : Char) : Bool :=
  decide (32 ≤ c.toNat) && decide (c.toNat < 128) && !(decide (c.toNat = 34)) &&
    !(decide (c.toNat = 92)) && !(decide (c.toNat = 60)) && !(decide (c.toNat = 62)) &&
    !(decide (c.toNat = 38))

/-- What `appendString` of `encoding/json` (HTML escaping on, the default of
an `Encoder`) writes for one code point, as of Go 1.22 and later (the package
needs `iter`, hence Go 1.23) -/
def escapeChar (c : Char) : List Char :=
  if c.toNat < 128 then
    if htmlSafe c then [c]
    else if c.toNat = 92 ∨ c.toNat = 34 then [backslash, c]
    else if c.toNat = 8 then [backslash, Char.ofNat 98]
    else if c.toNat = 12 then [backslash, Char.ofNat 102]
    else if c.toNat = 10 then [backslash, Char.ofNat 110]
    else if c.toNat = 13 then [backslash, Char.ofNat 114]
    else if c.toNat = 9 then [backslash, Char.ofNat 116]
    else [backslash, Char.ofNat 117, Char.ofNat 48, Char.ofNat 48,
      hexDigit (c.toNat / 16), hexDigit (c.toNat % 16)]
  else if c.toNat = 8232 ∨ c.toNat = 8233 then
    [backslash, Char.ofNat 117, Char.ofNat 50, Char.ofNat 48, Char.ofNat 50,
      hexDigit (c.toNat % 16)]
  else [c]

/-- JSON text of a Go `string` -/
def marshalString (s : String) : String :=
  quote ++ String.mk (s.data.flatMap escapeChar) ++ quote

/-- JSON text of a Go `int` (decimal, with a minus sign when negative) -/
def marshalInt : Int → String
  | Int.ofNat n => Nat.repr n
  | Int.negSucc n => "-" ++ Nat.repr (n + 1)

/-- One member of a JSON object: the quoted key, a colon and the value -/
def member (key value : String) : String := quote ++ key ++ quote ++ ":" ++ value

/-- JSON text of an object with the given members -/
def object (members : List String) : String := "\x7b" ++ ",".intercalate members ++ "\x7d"

/-- JSON text of a Go slice: `null` for the nil slice, else an array -/
def marshalSlice {α : Type} (elem : α → String) : Slice α → String
  | Slice.null => "null"
  | Slice.mk elems => "[" ++ ",".intercalate (elems.map elem) ++ "]"

end json

/-- JSON text of a `CommentDto`, by its struct tags -/
def CommentDto.marshal (c : CommentDto) : String :=
  json.object [json.member "slash" (json.marshalInt c.Slash),
    json.member "text" (json.marshalString c.Text)]

/-- JSON text of a `CommentGroupDto`, by its struct tags -/
def CommentGroupDto.marshal (g : CommentGroupDto) : String :=
  json.object [json.member "list" (json.marshalSlice CommentDto.marshal g.List)]

/-- JSON text of an `IdentDto`, by its struct tags -/
def IdentDto.marshal (i : IdentDto) : String :=
  json.object [json.member "name" (json.marshalString i.Name)]

/-- JSON text of a `PositionDto`, by its struct tags -/
def PositionDto.marshal (p : PositionDto) : String :=
  json.object [json.member "filename" (json.marshalString p.Filename),
    json.member "offset" (json.marshalInt p.Offset),
    json.member "line" (json.marshalInt p.Line),
    json.member "column" (json.marshalInt p.Column)]

/-- JSON text of a `BasicLitDto`, by its struct tags -/
def BasicLitDto.marshal (b : BasicLitDto) : String :=
  json.object [json.member "value_pos" b.ValuePos.marshal,
    json.member "kind" (json.marshalString b.Kind),
    json.member "value" (json.marshalString b.Value)]

/-- JSON text of an `ImportSpecDto`, by its struct tags -/
def ImportSpecDto.marshal (i : ImportSpecDto) : String :=
  json.object [json.member "doc" i.Doc.marshal,
    json.member "name" i.Name.marshal,
    json.member "path" i.Path.marshal,
    json.member "comment" i.Comment.marshal]

namespace io

/-- Go `io.Writer`: a sink with states `σ`; a `Write` moves the sink to a new
state and reports an error or none -/
structure Writer (σ ε : Type) where
  Write : σ → String → σ × Option ε

end io

namespace json

/-- Go `json.Encoder`: the state of its writer and the error it keeps after a
failed write; `calls` records the values `Encode` was invoked on (a ghost
field, read by no code) -/
structure Encoder (σ ε : Type) where
  w : σ
  err : Option ε
  calls : List ImportSpecDto
deriving DecidableEq

/-- Go `json.NewEncoder` -/
def NewEncoder {σ ε : Type} (w : σ) : Encoder σ ε := ⟨w, none, []⟩

/-- Go `Encoder.Encode` on an import record: a kept error is returned at once;
otherwise the JSON text and a newline go to the writer in one `Write`, and a
failure is kept and returned (marshalling these record types cannot fail) -/
def Encoder.Encode {σ ε : Type} (W : io.Writer σ ε) (enc : Encoder σ ε) (v : ImportSpecDto) :
    Encoder σ ε × Option ε :=
  match enc.err with
  | some e => (⟨enc.w, some e, enc.calls ++ [v]⟩, some e)
  | none =>
    match W.Write enc.w (v.marshal ++ "\n") with
    | (w1, none) => (⟨w1, none, enc.calls ++ [v]⟩, none)
    | (w1, some e) => (⟨w1, some e, enc.calls ++ [v]⟩, some e)

end json

/-! ## Streaming encoder -/

/-- The `range` loop of `FileDto.ToJSON` over the imports still to encode -/
def FileDto.ToJSON.loop {σ ε : Type} (W : io.Writer σ ε) :
    List ImportSpecDto → json.Encoder σ ε → json.Encoder σ ε × Option ε
  | [], enc => (enc, none)
  | imp :: rest, enc =>
    match json.Encoder.Encode W enc imp with
    | (enc1, some e) => (enc1, some e)
    | (enc1, none) => FileDto.ToJSON.loop W rest enc1

/-- Go `FileDto.ToJSON` -/
def FileDto.ToJSON {σ ε : Type} (f : FileDto) (W : io.Writer σ ε) (enc : json.Encoder σ ε) :
    json.Encoder σ ε × Option ε :=
  FileDto.ToJSON.loop W f.Imports.toList enc

/-- The `range` loop of `PassDto.ToJSON` over the files still to encode -/
def PassDto.ToJSON.loop {σ ε : Type} (W : io.Writer σ ε) :
    List FileDto → json.Encoder σ ε → json.Encoder σ ε × Option ε
  | [], enc => (enc, none)
  | file :: rest, enc =>
    match file.ToJSON W enc with
    | (enc1, some e) => (enc1, some e)
    | (enc1, none) => PassDto.ToJSON.loop W rest enc1

/-- Go `PassDto.ToJSON` -/
def PassDto.ToJSON {σ ε : Type} (p : PassDto) (W : io.Writer σ ε) (enc : json.Encoder σ ε) :
    json.Encoder σ ε × Option ε :=
  PassDto.ToJSON.loop W p.Files.toList enc

/-- Go `Config` -/
structure Config (σ ε : Type) where
  Encoder : json.Encoder σ ε
  Name : String
  Doc : String

/-- The value of Go type `any` that `Config.Run` returns first: always nil -/
abbrev AnyNil : Type := Option Unit

/-- Go `Config.Run`: the encoder after the run, the first result and the error -/
def Config.Run {σ ε : Type} (c : Config σ ε) (W : io.Writer σ ε) (pass : Option analysis.Pass) :
    Exec (json.Encoder σ ε × AnyNil × Option ε) :=
  (RawPass.Dto ⟨pass⟩).bind (fun dto =>
    Except.ok ((dto.ToJSON W c.Encoder).1, none, (dto.ToJSON W c.Encoder).2))

/-- Go `Config.WithWriter`: the receiver is a copy, so only the returned value
carries the new encoder, built by `json.NewEncoder` on the writer `w` -/
def Config.WithWriter {σ τ ε : Type} (c : Config σ ε) (w : τ) : Config τ ε :=
  ⟨json.NewEncoder w, c.Name, c.Doc⟩

namespace analysis

/-- Go `analysis.Analyzer`, with the fields the package sets -/
structure Analyzer (σ ε : Type) where
  Name : String
  Doc : String
  Run : io.Writer σ ε → Option Pass → Exec (json.Encoder σ ε × AnyNil × Option ε)

end analysis

/-- Go `Config.ToAnalyzer` -/
def Config.ToAnalyzer {σ ε : Type} (c : Config σ ε) : analysis.Analyzer σ ε :=
  ⟨c.Name, c.Doc, c.Run⟩

/-- Go `NameDefault` -/
def NameDefault : String := "import_details2jsonl"

/-- Go `DocDefault` -/
def DocDefault : String := "Import detail extractor"

namespace io

/-- Go `io.Discard`: every `Write` succeeds and keeps nothing -/
def Discard {ε : Type} : Writer Unit ε := ⟨fun _ _ => ((), none)⟩

end io

/-- Go `WriterDefault` -/
def WriterDefault {ε : Type} : io.Writer Unit ε := io.Discard

/-- Go `ConfigDefault`: its encoder is `json.NewEncoder(WriterDefault)`; the
discard writer has the single state `()` -/
def ConfigDefault {ε : Type} : Config Unit ε :=
  ⟨json.NewEncoder (), NameDefault, DocDefault⟩

/-- The mapper `RawPass.Dto` hands to `IterMap`: it reads `p.Pass.Fset` when it
is invoked on a file -/
def RawPass.fileMapper (p : RawPass) (original : Option ast.File) : Exec FileDto :=
  match p.Pass with
  | none => Except.error Panic.nilDereference
  | some pass => RawFile.Dto ⟨original⟩ pass.Fset

/-- Two sinks have the same behaviour from states related by `R`: on the same
data their writes report the same outcome and lead to related states -/
def sameBehaviour {σ τ ε : Type} (W1 : io.Writer σ ε) (W2 : io.Writer τ ε)
    (R : σ → τ → Prop) : Prop :=
  ∀ (s : σ) (t : τ) (data : String), R s t →
    (W1.Write s data).2 = (W2.Write t data).2 ∧ R (W1.Write s data).1 (W2.Write t data).1

/-! ## A recording sink -/

/-- A sink that keeps every `Write` it receives with its outcome; whether a
write fails is decided by `behaviour` from the writes so far and the data -/
def recorder {ε : Type} (behaviour : List (String × Option ε) → String → Option ε) :
    io.Writer (List (String × Option ε)) ε :=
  ⟨fun log data => (log ++ [(data, behaviour log data)], behaviour log data)⟩

/-- The data of the writes a recording sink accepted -/
def accepted {ε : Type} (log : List (String × Option ε)) : List String :=
  (log.filter (fun entry => entry.2.isNone)).map Prod.fst

/-- The log entries of writes that were accepted, for the given data -/
def acceptedEntries {ε : Type} (lines : List String) : List (String × Option ε) :=
  lines.map (fun data => (data, none))

/-- Whether a recording sink whose log is `log` accepts each of the given
writes, one after the other -/
def acceptsAll {ε : Type} (behaviour : List (String × Option ε) → String → Option ε) :
    List (String × Option ε) → List String → Bool
  | _, [] => true
  | log, data :: rest =>
    (behaviour log data).isNone && acceptsAll behaviour (log ++ [(data, none)]) rest

/-- The line `Encode` hands to the writer for one record -/
def line (v : ImportSpecDto) : String := v.marshal ++ "\n"

/-- The lines a fresh recording sink has accepted after `Config.Run` on the
pass; `none` when the run panics -/
def linesOfRun {ε : Type} (behaviour : List (String × Option ε) → String → Option ε)
    (pass : Option analysis.Pass) : Option (List String) :=
  match Config.Run ⟨json.NewEncoder [], NameDefault, DocDefault⟩ (recorder behaviour) pass with
  | Except.ok (enc, _, _) => some (accepted enc.w)
  | Except.error _ => none

/-- The records of a pass in the order of traversal: file by file, and inside a
file import by import -/
def PassDto.records (p : PassDto) : List ImportSpecDto :=
  (p.Files.toList.map (fun f => f.Imports.toList)).flatten

/-! ## Sample inputs -/

/-- A position table for one file `f.go` whose positions all lie on line 3 -/
def sampleFset : token.FileSet := ⟨fun p => ⟨"f.go", p - 1, 3, p - 20⟩⟩

/-- The import spec of `import "fmt"`: no doc, no alias, no trailing comment -/
def plainSpec : ast.ImportSpec :=
  ⟨none, none, some ⟨28, token.Token.STRING, quote ++ "fmt" ++ quote⟩, none, 0⟩

/-- The import spec of `import foo "example.com/foo" // trailing` -/
def aliasSpec : ast.ImportSpec :=
  ⟨none, some ⟨30, "foo"⟩, some ⟨34, token.Token.STRING, quote ++ "example.com/foo" ++ quote⟩,
    some ⟨Slice.mk [some ⟨52, "// trailing"⟩]⟩, 0⟩

/-- The record of `plainSpec` -/
def recA : ImportSpecDto := RawImportSpec.Dto ⟨some plainSpec⟩ sampleFset

/-- The record of `aliasSpec` -/
def recB : ImportSpecDto := RawImportSpec.Dto ⟨some aliasSpec⟩ sampleFset

/-- The record of an absent import spec -/
def recC : ImportSpecDto := RawImportSpec.Dto ⟨none⟩ sampleFset

/-- A pass result of two files: the first with two imports, the second with one -/
def twoFilePass : PassDto :=
  ⟨Slice.mk [⟨"f1.go", Slice.mk [recA, recB]⟩, ⟨"f2.go", Slice.mk [recC]⟩]⟩

/-- A pass result with the same three imports grouped otherwise, under other
file names and with files that have no import -/
def regroupedPass : PassDto :=
  ⟨Slice.mk [⟨"x.go", Slice.null⟩, ⟨"y.go", Slice.mk [recA]⟩, ⟨"z.go", Slice.mk []⟩,
    ⟨"w.go", Slice.mk [recB, recC]⟩]⟩

/-- A sink that accepts every write -/
def neverFails : List (String × Option String) → String → Option String :=
  fun _ _ => none

/-- A sink that accepts two writes and rejects the third -/
def failsOnThird : List (String × Option String) → String → Option String :=
  fun log _ => if log.length = 2 then some "disk full" else none

/-- A sink that rejects every write -/
def alwaysFails : List (String × Option String) → String → Option String :=
  fun _ _ => some "closed pipe"

/-- A parsed file without import declarations -/
def noImportFile : ast.File := ⟨1, Slice.null⟩

/-- A parsed file with the two sample imports -/
def twoImportFile : ast.File := ⟨1, Slice.mk [some plainSpec, some aliasSpec]⟩

/-- A pass over two parsed files that share `sampleFset` -/
def samplePass : analysis.Pass := ⟨sampleFset, Slice.mk [some twoImportFile, some noImportFile]⟩

/-- The import spec of `import foo "example.com/foo" // trailing` with its
positions left open: no doc group, alias `foo`, one trailing comment -/
def exampleSpecAt (namePos valuePos slash endPos : token.Pos) : ast.ImportSpec :=
  ⟨none, some ⟨namePos, "foo"⟩,
    some ⟨valuePos, token.Token.STRING, quote ++ "example.com/foo" ++ quote⟩,
    some ⟨Slice.mk [some ⟨slash, "// trailing"⟩]⟩, endPos⟩

/-- A pass over one file that holds the single import of `exampleSpecAt` -/
def examplePassAt (fset : token.FileSet) (package namePos valuePos slash endPos : token.Pos) :
    analysis.Pass :=
  ⟨fset, Slice.mk [some ⟨package, Slice.mk [some (exampleSpecAt namePos valuePos slash endPos)]⟩]⟩

/-- A sink that accepts one write and rejects the second, as a behaviour of a
recording sink -/
def failsOnSecond : List (String × Option String) → String → Option String :=
  fun log _ => if log.length = 1 then some "disk full" else none

/-- A sink that only counts its writes and rejects the second -/
def countingSink : io.Writer Nat String :=
  ⟨fun n _ => (n + 1, if n = 1 then some "disk full" else none)⟩

/-- A pass whose second file is absent -/
def nilFilePass : analysis.Pass := ⟨sampleFset, Slice.mk [some twoImportFile, none]⟩

/-- A comment group whose second comment is absent -/
def gappedGroup : ast.CommentGroup :=
  ⟨Slice.mk [some ⟨40, "// one"⟩, none, some ⟨60, "/* three */"⟩]⟩

/-! ## Trimming lemmas -/

/-- Trimming on code points: the list form of `strings.Trim` -/
theorem trim_data (s cutset : String) :
    (strings.Trim s cutset).data =
      (s.data.dropWhile (fun c => decide (c ∈ cutset.data))).rdropWhile
        (fun c => decide (c ∈ cutset.data)) := rfl

/-- A trailing element that is cut does not change what trimming both ends leaves -/
theorem rdropWhile_dropWhile_concat {α : Type} (p : α → Bool) (a : α) (h : p a = true)
    (l : List α) :
    ((l ++ [a]).dropWhile p).rdropWhile p = (l.dropWhile p).rdropWhile p := by
  induction l with
  | nil => simp [List.dropWhile, h]
  | cons x l ih =>
    by_cases hx : p x = true
    · simpa [List.dropWhile, hx] using ih
    · have hx2 : p x = false := by simpa using hx
      rw [List.cons_append, List.dropWhile_cons_of_neg hx, List.dropWhile_cons_of_neg hx,
        ← List.cons_append, List.rdropWhile_concat_pos _ _ _ h]

/-- Trimming a list enclosed in two cut elements is trimming the list -/
theorem rdropWhile_dropWhile_enclosed {α : Type} (p : α → Bool) (a : α) (h : p a = true)
    (l : List α) :
    ((a :: (l ++ [a])).dropWhile p).rdropWhile p = (l.dropWhile p).rdropWhile p := by
  rw [List.dropWhile_cons_of_pos h]
  exact rdropWhile_dropWhile_concat p a h l

/-- Trimming both ends changes nothing exactly when neither end is cut -/
theorem rdropWhile_dropWhile_eq_self_iff {α : Type} (p : α → Bool) (l : List α) :
    (l.dropWhile p).rdropWhile p = l ↔
      (∀ x, l.head? = some x → p x = false) ∧ (∀ x, l.getLast? = some x → p x = false) := by
  constructor
  · intro h
    have hpre : (l.dropWhile p).rdropWhile p <+: l.dropWhile p := List.rdropWhile_prefix p _
    have hsuf : l.dropWhile p <:+ l := List.dropWhile_suffix p
    have hlen1 : ((l.dropWhile p).rdropWhile p).length ≤ (l.dropWhile p).length := hpre.length_le
    have hlen2 : (l.dropWhile p).length ≤ l.length := hsuf.length_le
    have hd : l.dropWhile p = l := by
      apply hsuf.eq_of_length
      rw [h] at hlen1
      omega
    have hr : l.rdropWhile p = l := by rw [hd] at h; exact h
    constructor
    · intro x hx
      cases l with
      | nil => simp at hx
      | cons y t =>
        simp at hx
        subst hx
        by_contra hp
        have hp2 : p y = true := by simpa using hp
        rw [List.dropWhile_cons_of_pos hp2] at hd
        have := (List.dropWhile_suffix p (l := t)).length_le
        rw [hd] at this
        simp at this
    · intro x hx
      have hne : l ≠ [] := by
        intro h0
        simp [h0] at hx
      have := List.rdropWhile_eq_self_iff.mp hr hne
      rw [List.getLast?_eq_getLast _ hne] at hx
      simp at hx
      subst hx
      simpa using this
  · rintro ⟨h1, h2⟩
    have hd : l.dropWhile p = l := by
      cases l with
      | nil => rfl
      | cons y t =>
        have := h1 y (by simp)
        rw [List.dropWhile_cons_of_neg (by simp [this])]
    rw [hd]
    apply List.rdropWhile_eq_self_iff.mpr
    intro hne
    have := h2 (l.getLast hne) (List.getLast?_eq_getLast _ hne)
    simp [this]

/-- A code point is outside the cutset of one quote exactly when it is not the
quote -/
theorem not_quote_iff (c : Char) :
    decide (c ∈ quote.data) = false ↔ c ≠ quoteChar := by
  simp [quote, String.singleton]

/-- Trimming quotes off a text enclosed in quotes is trimming the enclosed text -/
theorem trim_quoted (s : String) :
    strings.Trim (quote ++ s ++ quote) quote = strings.Trim s quote := by
  apply String.ext
  rw [trim_data, trim_data]
  have hq : decide (quoteChar ∈ quote.data) = true := by decide
  have hdata : (quote ++ s ++ quote).data = quoteChar :: (s.data ++ [quoteChar]) := by
    simp [String.data_append, quote, String.singleton]
  rw [hdata]
  exact rdropWhile_dropWhile_enclosed _ quoteChar hq s.data

/-- Trimming quotes leaves a text unchanged exactly when it neither begins nor
ends with a quote -/
theorem trim_eq_self_iff (s : String) :
    strings.Trim s quote = s ↔
      s.data.head? ≠ some quoteChar ∧ s.data.getLast? ≠ some quoteChar := by
  have key := rdropWhile_dropWhile_eq_self_iff (fun c => decide (c ∈ quote.data)) s.data
  constructor
  · intro h
    have h2 := key.mp (by rw [← trim_data, h])
    refine ⟨fun hh => ?_, fun hl => ?_⟩
    · have := h2.1 quoteChar hh
      exact absurd this (by decide)
    · have := h2.2 quoteChar hl
      exact absurd this (by decide)
  · rintro ⟨h1, h2⟩
    apply String.ext
    rw [trim_data]
    apply key.mpr
    refine ⟨fun x hx => ?_, fun x hx => ?_⟩
    · rw [not_quote_iff]
      rintro rfl
      exact h1 hx
    · rw [not_quote_iff]
      rintro rfl
      exact h2 hx

/-! ## Streaming and collection lemmas -/

/-- The loop over a concatenation runs the first part, then, unless that failed, the second -/
theorem file_loop_append {σ ε : Type} (W : io.Writer σ ε) (a b : List ImportSpecDto)
    (enc : json.Encoder σ ε) :
    FileDto.ToJSON.loop W (a ++ b) enc =
      match FileDto.ToJSON.loop W a enc with
      | (enc1, some e) => (enc1, some e)
      | (enc1, none) => FileDto.ToJSON.loop W b enc1 := by
  induction a generalizing enc with
  | nil => simp [FileDto.ToJSON.loop]
  | cons x a ih =>
    simp only [List.cons_append, FileDto.ToJSON.loop]
    rcases h : json.Encoder.Encode W enc x with ⟨enc1, _ | e⟩
    · simp [ih]
    · simp

/-- The pass loop is the file loop over the flattened imports -/
theorem pass_loop_eq_file_loop {σ ε : Type} (W : io.Writer σ ε) (files : List FileDto)
    (enc : json.Encoder σ ε) :
    PassDto.ToJSON.loop W files enc =
      FileDto.ToJSON.loop W (files.map (fun f => f.Imports.toList)).flatten enc := by
  induction files generalizing enc with
  | nil => simp [PassDto.ToJSON.loop, FileDto.ToJSON.loop]
  | cons f files ih =>
    simp only [PassDto.ToJSON.loop, List.map_cons, List.flatten_cons, file_loop_append,
      FileDto.ToJSON]
    rcases h : FileDto.ToJSON.loop W f.Imports.toList enc with ⟨enc1, _ | e⟩
    · simp [ih]
    · simp

/-- The encoder of a pass is the import loop over its records in traversal order -/
theorem pass_toJSON_eq {σ ε : Type} (W : io.Writer σ ε) (p : PassDto) (enc : json.Encoder σ ε) :
    p.ToJSON W enc = FileDto.ToJSON.loop W p.records enc :=
  pass_loop_eq_file_loop W p.Files.toList enc

/-- What `Encode` does on a recording sink that accepts the write -/
theorem encode_accepted {ε : Type} (B : List (String × Option ε) → String → Option ε)
    (r : ImportSpecDto) (log : List (String × Option ε)) (calls : List ImportSpecDto)
    (h : B log (line r) = none) :
    json.Encoder.Encode (recorder B) ⟨log, none, calls⟩ r =
      (⟨log ++ [(line r, none)], none, calls ++ [r]⟩, none) := by
  have hB : B log (r.marshal ++ "\n") = none := h
  simp [json.Encoder.Encode, recorder, hB, line]

/-- What `Encode` does on a recording sink that rejects the write -/
theorem encode_failing {ε : Type} (B : List (String × Option ε) → String → Option ε)
    (r : ImportSpecDto) (log : List (String × Option ε)) (calls : List ImportSpecDto) (e : ε)
    (h : B log (line r) = some e) :
    json.Encoder.Encode (recorder B) ⟨log, none, calls⟩ r =
      (⟨log ++ [(line r, some e)], some e, calls ++ [r]⟩, some e) := by
  have hB : B log (r.marshal ++ "\n") = some e := h
  simp [json.Encoder.Encode, recorder, hB, line]

/-- A run of accepted writes -/
theorem file_loop_accepted {ε : Type} (B : List (String × Option ε) → String → Option ε)
    (recs : List ImportSpecDto) (log : List (String × Option ε)) (calls : List ImportSpecDto)
    (h : acceptsAll B log (recs.map line) = true) :
    FileDto.ToJSON.loop (recorder B) recs ⟨log, none, calls⟩ =
      (⟨log ++ acceptedEntries (recs.map line), none, calls ++ recs⟩, none) := by
  induction recs generalizing log calls with
  | nil => simp [FileDto.ToJSON.loop, acceptedEntries]
  | cons r recs ih =>
    simp only [List.map_cons, acceptsAll, Bool.and_eq_true, Option.isNone_iff_eq_none] at h
    simp only [FileDto.ToJSON.loop, encode_accepted B r log calls h.1]
    rw [ih _ _ h.2]
    simp [acceptedEntries]

/-- A failing write stops the loop -/
theorem file_loop_failing {ε : Type} (B : List (String × Option ε) → String → Option ε)
    (r : ImportSpecDto) (rest : List ImportSpecDto) (log : List (String × Option ε))
    (calls : List ImportSpecDto) (e : ε) (h : B log (line r) = some e) :
    FileDto.ToJSON.loop (recorder B) (r :: rest) ⟨log, none, calls⟩ =
      (⟨log ++ [(line r, some e)], some e, calls ++ [r]⟩, some e) := by
  simp only [FileDto.ToJSON.loop, encode_failing B r log calls e h]

/-- The accepted writes of two logs put end to end -/
theorem accepted_append {ε : Type} (a b : List (String × Option ε)) :
    accepted (a ++ b) = accepted a ++ accepted b := by
  simp [accepted]

/-- Accepted entries are all accepted -/
theorem accepted_acceptedEntries {ε : Type} (lines : List String) :
    accepted (acceptedEntries lines : List (String × Option ε)) = lines := by
  induction lines with
  | nil => rfl
  | cons l ls ih =>
    simp only [accepted, acceptedEntries] at ih ⊢
    simp [ih]

/-- Collecting a mapped slice whose mapper never panics on its elements yields
the mapped elements after those already collected -/
theorem collect_loop_map {α β : Type} (g : α → Exec β) (l : List α)
    (hok : ∀ x ∈ l, ∃ y, g x = Except.ok y) (acc : Slice β) :
    ∃ r, slices.Collect.loop acc (IterMap (l.map Except.ok) g) = Except.ok r ∧
      r.toList.map Except.ok = acc.toList.map Except.ok ++ l.map g := by
  induction l generalizing acc with
  | nil => exact ⟨acc, rfl, by simp⟩
  | cons x l ih =>
    obtain ⟨y, hy⟩ := hok x (List.mem_cons_self x l)
    obtain ⟨r, hr, hlist⟩ := ih (fun z hz => hok z (List.mem_cons_of_mem x hz)) (acc.append y)
    refine ⟨r, ?_, ?_⟩
    · have hbind : (Except.ok x : Exec α).bind g = Except.ok y := hy
      simp only [IterMap, List.map_cons, slices.Collect.loop, hbind]
      exact hr
    · rw [hlist]
      simp [Slice.append, Slice.toList, hy]

/-- Collecting from the nil slice -/
theorem collect_map {α β : Type} (g : α → Exec β) (s : Slice α)
    (hok : ∀ x ∈ s.toList, ∃ y, g x = Except.ok y) :
    ∃ r, slices.Collect (IterMap (slices.Values s) g).Raw = Except.ok r ∧
      r.toList.map Except.ok = s.toList.map g := by
  obtain ⟨r, hr, hlist⟩ := collect_loop_map g s.toList hok Slice.null
  exact ⟨r, hr, by simpa [Slice.toList] using hlist⟩

/-- The file extractor on a present file -/
theorem file_dto_present (file : ast.File) (fset : token.FileSet) :
    ∃ dto, RawFile.Dto ⟨some file⟩ fset = Except.ok dto ∧
      dto.Name = (fset.Position file.Package).Filename ∧
      dto.Imports.toList =
        file.Imports.toList.map (fun original => RawImportSpec.Dto ⟨original⟩ fset) := by
  obtain ⟨r, hr, hlist⟩ := collect_map
    (fun original => (Except.ok (RawImportSpec.Dto ⟨original⟩ fset) : Exec ImportSpecDto))
    file.Imports (fun x _ => ⟨_, rfl⟩)
  refine ⟨⟨(fset.Position file.Package).Filename, r⟩, ?_, rfl, ?_⟩
  · simp only [RawFile.Dto, RawFile.Name, RawFile.Imports, Except.bind]
    rw [hr]
  · have hinj : Function.Injective (Except.ok : ImportSpecDto → Exec ImportSpecDto) :=
      fun a b h => by injection h
    apply List.map_injective_iff.mpr hinj
    rw [hlist]
    simp

/-- A list splits around any of its elements -/
theorem split_at_index {α : Type} (l : List α) (n : Nat) (r : α) (h : l[n]? = some r) :
    l = l.take n ++ r :: l.drop (n + 1) := by
  induction l generalizing n with
  | nil => simp at h
  | cons x l ih =>
    cases n with
    | zero =>
      simp at h
      simp [h]
    | succ n =>
      simp at h
      simpa using ih n h

/-- The first elements of a list up to and with the one at an index -/
theorem take_succ_of_index {α : Type} (l : List α) (n : Nat) (r : α) (h : l[n]? = some r) :
    l.take (n + 1) = l.take n ++ [r] := by
  rw [List.take_succ, h]
  rfl

/-! ## The end-to-end example -/

/-- The record of the example import, for a table that resolves the literal -/
theorem example_record (fset : token.FileSet) (namePos valuePos slash endPos o c : Int)
    (hpos : fset.Position valuePos = ⟨"f.go", o, 3, c⟩) :
    RawImportSpec.Dto ⟨some (exampleSpecAt namePos valuePos slash endPos)⟩ fset =
      ⟨⟨Slice.null⟩, ⟨"foo"⟩, ⟨⟨"f.go", o, 3, c⟩, "STRING", "example.com/foo"⟩,
        ⟨Slice.mk [⟨slash, "// trailing"⟩]⟩⟩ := by
  have htrim : strings.Trim (quote ++ "example.com/foo" ++ quote) quote = "example.com/foo" := by
    decide
  simp only [RawImportSpec.Dto, exampleSpecAt, RawImportSpec.Doc, RawImportSpec.Name,
    RawImportSpec.Path, RawImportSpec.Comment, RawCommentGroup.Dto, RawIdent.Dto,
    RawBasicLit.Dto, hpos, RawPosition.Dto, htrim, CommentGroupDto.zero, Slice.toList,
    List.foldl, Slice.append, Slice.make0, RawComment.Dto, RawComment.Slash, RawComment.Text,
    token.Token.String, List.nil_append]

set_option maxRecDepth 100000 in
/-- The line of the record of the example import -/
theorem example_line (slash o c : Int) :
    line ⟨⟨Slice.null⟩, ⟨"foo"⟩, ⟨⟨"f.go", o, 3, c⟩, "STRING", "example.com/foo"⟩,
        ⟨Slice.mk [⟨slash, "// trailing"⟩]⟩⟩ =
      "\x7b\"doc\":\x7b\"list\":null\x7d,\"name\":\x7b\"name\":\"foo\"\x7d,\"path\":\x7b\"value_pos\":\x7b\"filename\":\"f.go\",\"offset\":" ++ json.marshalInt o ++ ",\"line\":3,\"column\":" ++ json.marshalInt c ++ "\x7d,\"kind\":\"STRING\",\"value\":\"example.com/foo\"\x7d,\"comment\":\x7b\"list\":[\x7b\"slash\":" ++ json.marshalInt slash ++ ",\"text\":\"// trailing\"\x7d]\x7d\x7d\n" := by
  have h1 : json.marshalString "foo" = "\"foo\"" := by decide
  have h2 : json.marshalString "f.go" = "\"f.go\"" := by decide
  have h3 : json.marshalString "STRING" = "\"STRING\"" := by decide
  have h4 : json.marshalString "example.com/foo" = "\"example.com/foo\"" := by decide
  have h5 : json.marshalString "// trailing" = "\"// trailing\"" := by decide
  have h6 : json.marshalInt 3 = "3" := by decide
  simp only [line, ImportSpecDto.marshal, CommentGroupDto.marshal, IdentDto.marshal,
    BasicLitDto.marshal, PositionDto.marshal, CommentDto.marshal, json.marshalSlice,
    json.object, json.member, String.intercalate, String.intercalate.go, List.map,
    h1, h2, h3, h4, h5, h6]
  apply String.ext
  simp [String.data_append, quote, quoteChar, String.singleton]

/-- The pass result of the example pass -/
theorem example_pass_dto (fset : token.FileSet) (package namePos valuePos slash endPos o c : Int)
    (hfile : (fset.Position package).Filename = "f.go")
    (hpos : fset.Position valuePos = ⟨"f.go", o, 3, c⟩) :
    RawPass.Dto ⟨some (examplePassAt fset package namePos valuePos slash endPos)⟩ =
      Except.ok ⟨Slice.mk [⟨"f.go", Slice.mk
        [⟨⟨Slice.null⟩, ⟨"foo"⟩, ⟨⟨"f.go", o, 3, c⟩, "STRING", "example.com/foo"⟩,
          ⟨Slice.mk [⟨slash, "// trailing"⟩]⟩⟩]⟩]⟩ := by
  have hrec := example_record fset namePos valuePos slash endPos o c hpos
  simp only [RawPass.Dto, RawPass.Files, examplePassAt, slices.Values, Slice.toList, List.map,
    IterMap, Iter.Raw, slices.Collect, slices.Collect.loop, Except.bind, RawFile.Dto,
    RawFile.Name, RawFile.Imports, hfile, hrec, Slice.append, List.nil_append]

/-! ## Lemmas on sinks, comment groups and panics -/

/-- Against two sinks of the same behaviour the import loop returns the same
result after the same calls of `Encode`, and leaves the sinks in related states -/
theorem file_loop_same_behaviour {σ τ ε : Type} (W1 : io.Writer σ ε) (W2 : io.Writer τ ε)
    (R : σ → τ → Prop) (hsame : sameBehaviour W1 W2 R) (recs : List ImportSpecDto)
    (s : σ) (t : τ) (calls : List ImportSpecDto) (hrel : R s t) :
    (FileDto.ToJSON.loop W1 recs ⟨s, none, calls⟩).2 =
      (FileDto.ToJSON.loop W2 recs ⟨t, none, calls⟩).2 ∧
    (FileDto.ToJSON.loop W1 recs ⟨s, none, calls⟩).1.calls =
      (FileDto.ToJSON.loop W2 recs ⟨t, none, calls⟩).1.calls ∧
    (FileDto.ToJSON.loop W1 recs ⟨s, none, calls⟩).1.err =
      (FileDto.ToJSON.loop W2 recs ⟨t, none, calls⟩).1.err ∧
    R (FileDto.ToJSON.loop W1 recs ⟨s, none, calls⟩).1.w
      (FileDto.ToJSON.loop W2 recs ⟨t, none, calls⟩).1.w := by
  induction recs generalizing s t calls with
  | nil => exact ⟨rfl, rfl, rfl, hrel⟩
  | cons x recs ih =>
    obtain ⟨hout, hnext⟩ := hsame s t (x.marshal ++ "\n") hrel
    simp only [FileDto.ToJSON.loop, json.Encoder.Encode]
    rcases h1 : W1.Write s (x.marshal ++ "\n") with ⟨s1, _ | e1⟩ <;>
      rcases h2 : W2.Write t (x.marshal ++ "\n") with ⟨t1, _ | e2⟩ <;>
      rw [h1, h2] at hout hnext <;> simp only at hout hnext
    · exact ih s1 t1 _ hnext
    · exact Option.noConfusion hout
    · exact Option.noConfusion hout
    · exact ⟨hout, rfl, hout, hnext⟩

/-- On a recording sink the data of the writes are the lines of the records
`Encode` was called on, when that held before the loop -/
theorem file_loop_log_lines {ε : Type} (B : List (String × Option ε) → String → Option ε)
    (recs : List ImportSpecDto) (log : List (String × Option ε)) (calls : List ImportSpecDto)
    (hinv : log.map Prod.fst = calls.map line) :
    (FileDto.ToJSON.loop (recorder B) recs ⟨log, none, calls⟩).1.w.map Prod.fst =
      (FileDto.ToJSON.loop (recorder B) recs ⟨log, none, calls⟩).1.calls.map line := by
  induction recs generalizing log calls with
  | nil => exact hinv
  | cons x recs ih =>
    cases hB : B log (line x) with
    | none =>
      simp only [FileDto.ToJSON.loop, encode_accepted B x log calls hB]
      exact ih _ _ (by simp [hinv])
    | some e =>
      rw [file_loop_failing B x recs log calls e hB]
      simp [hinv]

/-- The recording sink that rejects its second write and the counting sink
that rejects its second write have the same behaviour, a log being related to
the count of its entries -/
theorem recorder_counting_same_behaviour :
    sameBehaviour (recorder failsOnSecond) countingSink (fun log n => log.length = n) := by
  intro log n data h
  simp only [recorder, countingSink, failsOnSecond, List.length_append, List.length_singleton]
  subst h
  exact ⟨rfl, rfl⟩

/-- The loop of `RawCommentGroup.Dto` appends the record of each comment, in
order, to the slice it starts from -/
theorem comment_loop (comments : List (Option ast.Comment)) (acc : List CommentDto) :
    comments.foldl (fun list c => list.append (RawComment.Dto ⟨c⟩)) (Slice.mk acc) =
      Slice.mk (acc ++ comments.map (fun c => RawComment.Dto ⟨c⟩)) := by
  induction comments generalizing acc with
  | nil => simp
  | cons c comments ih =>
    have hstep : (Slice.mk acc).append (RawComment.Dto ⟨c⟩) =
        Slice.mk (acc ++ [RawComment.Dto ⟨c⟩]) := rfl
    rw [List.foldl_cons, hstep, ih]
    simp

/-- What trimming both ends leaves does not begin with a cut element -/
theorem trimmed_head_not_cut {α : Type} (p : α → Bool) (l : List α) (x : α)
    (h : ((l.dropWhile p).rdropWhile p).head? = some x) : p x = false := by
  obtain ⟨t, ht⟩ := List.rdropWhile_prefix p (l.dropWhile p)
  have hhead : (l.dropWhile p).head? = some x := by
    rw [← ht, List.head?_append, h]
    rfl
  have := List.head?_dropWhile_not p l
  rw [hhead] at this
  exact this

/-- What trimming both ends leaves does not end with a cut element -/
theorem trimmed_last_not_cut {α : Type} (p : α → Bool) (l : List α) (x : α)
    (h : ((l.dropWhile p).rdropWhile p).getLast? = some x) : p x = false := by
  have hne : (l.dropWhile p).rdropWhile p ≠ [] := by
    intro h0
    rw [h0] at h
    exact Option.noConfusion h
  have hnot := List.rdropWhile_last_not p (l.dropWhile p) hne
  rw [List.getLast?_eq_getLast _ hne] at h
  rw [← Option.some.inj h]
  simpa using hnot

/-- What trimming both ends leaves is a contiguous part of the list -/
theorem trimmed_infix {α : Type} (p : α → Bool) (l : List α) :
    (l.dropWhile p).rdropWhile p <:+: l :=
  (List.rdropWhile_prefix p (l.dropWhile p)).isInfix.trans (List.dropWhile_suffix p).isInfix

/-- Any number of cut elements before and after a list are trimmed away -/
theorem trimmed_replicate {α : Type} (p : α → Bool) (a : α) (h : p a = true) (l : List α)
    (m n : Nat) :
    ((List.replicate m a ++ l ++ List.replicate n a).dropWhile p).rdropWhile p =
      (l.dropWhile p).rdropWhile p := by
  induction n with
  | zero =>
    induction m with
    | zero => simp
    | succ m ih =>
      rw [List.replicate_succ, List.cons_append, List.cons_append, List.dropWhile_cons_of_pos h]
      exact ih
  | succ n ih =>
    rw [List.replicate_succ', ← List.append_assoc, rdropWhile_dropWhile_concat p a h]
    exact ih

/-- Collecting a mapped list panics as soon as the mapper panics on one of its
elements -/
theorem collect_loop_panics {α β : Type} (g : α → Exec β) (l : List α)
    (hbad : ∃ x ∈ l, ∃ p, g x = Except.error p) (acc : Slice β) :
    ∃ p, slices.Collect.loop acc (IterMap (l.map Except.ok) g) = Except.error p := by
  induction l generalizing acc with
  | nil =>
    obtain ⟨x, hx, _⟩ := hbad
    simp at hx
  | cons y l ih =>
    cases hy : g y with
    | error p =>
      have hbind : (Except.ok y : Exec α).bind g = Except.error p := hy
      exact ⟨p, by simp only [IterMap, List.map_cons, slices.Collect.loop, hbind]⟩
    | ok v =>
      have hbind : (Except.ok y : Exec α).bind g = Except.ok v := hy
      have hrest : ∃ x ∈ l, ∃ p, g x = Except.error p := by
        obtain ⟨x, hx, p, hp⟩ := hbad
        rcases List.mem_cons.mp hx with rfl | hmem
        · rw [hy] at hp
          exact Except.noConfusion hp
        · exact ⟨x, hmem, p, hp⟩
      obtain ⟨p, hp⟩ := ih hrest (acc.append v)
      exact ⟨p, by simp only [IterMap, List.map_cons, slices.Collect.loop, hbind]; exact hp⟩

/-! ## Absent comment groups -/

set_option maxRecDepth 100000 in
/-- C1 (as stated, refuted): for `import "fmt"`, which has neither a doc group
nor a trailing comment, the record's doc and comment lists are the nil slice,
not the empty non-nil slice, and the emitted line carries `"list":null` twice -/
theorem absent_group_list_is_null_example :
    (RawCommentGroup.Dto ⟨none⟩).List.isNil = true ∧
    (RawImportSpec.Dto ⟨some plainSpec⟩ sampleFset).Doc.List ≠ Slice.mk [] ∧
    (RawImportSpec.Dto ⟨some plainSpec⟩ sampleFset).Comment.List ≠ Slice.mk [] ∧
    line (RawImportSpec.Dto ⟨some plainSpec⟩ sampleFset) =
      "\x7b\"doc\":\x7b\"list\":null\x7d,\"name\":\x7b\"name\":\"\"\x7d,\"path\":\x7b\"value_pos\":\x7b\"filename\":\"f.go\",\"offset\":27,\"line\":3,\"column\":8\x7d,\"kind\":\"STRING\",\"value\":\"fmt\"\x7d,\"comment\":\x7b\"list\":null\x7d\x7d\n" := by
  decide

/-- C1 (amended): for every import spec without a doc group (resp. without a
trailing comment group) the record's doc (resp. comment) is the zero
`CommentGroupDto`: its list has length zero and is the nil slice, and its JSON
text in the emitted line is `"list":null`; the line is the object of the four
members doc, name, path, comment in this order -/
theorem absent_group_is_zero_and_null (name : Option ast.Ident) (path : Option ast.BasicLit)
    (other : Option ast.CommentGroup) (endPos : token.Pos) (fset : token.FileSet) :
    RawCommentGroup.Dto ⟨none⟩ = CommentGroupDto.zero ∧
    (RawCommentGroup.Dto ⟨none⟩).List = Slice.null ∧
    (RawCommentGroup.Dto ⟨none⟩).List.len = 0 ∧
    (RawImportSpec.Dto ⟨some ⟨none, name, path, other, endPos⟩⟩ fset).Doc =
      RawCommentGroup.Dto ⟨none⟩ ∧
    (RawImportSpec.Dto ⟨some ⟨other, name, path, none, endPos⟩⟩ fset).Comment =
      RawCommentGroup.Dto ⟨none⟩ ∧
    (RawCommentGroup.Dto ⟨none⟩).marshal = "\x7b\"list\":null\x7d" ∧
    (∀ dto : ImportSpecDto, line dto =
      "\x7b\"doc\":" ++ dto.Doc.marshal ++ ",\"name\":" ++ dto.Name.marshal ++
        ",\"path\":" ++ dto.Path.marshal ++ ",\"comment\":" ++ dto.Comment.marshal ++
        "\x7d" ++ "\n") := by
  refine ⟨rfl, rfl, rfl, rfl, rfl, by decide, ?_⟩
  intro dto
  simp only [line, ImportSpecDto.marshal, json.object, json.member, String.intercalate,
    String.intercalate.go]
  apply String.ext
  simp [String.data_append, quote, quoteChar, String.singleton]

/-! ## Path literals -/

/-- C2 (as stated, refuted): the Go literal `"a\""` has raw text quote, `a`,
backslash, quote, quote; between its enclosing quotes stands `a\"`, yet
`path.value` is `a\` : the quote that ends the enclosed text is removed too -/
theorem quoted_inner_quote_also_removed_example :
    (RawBasicLit.Dto ⟨some ⟨28, token.Token.STRING,
        quote ++ ("a" ++ String.singleton json.backslash ++ quote) ++ quote⟩⟩ sampleFset).Value
      = "a" ++ String.singleton json.backslash ∧
    (RawBasicLit.Dto ⟨some ⟨28, token.Token.STRING,
        quote ++ ("a" ++ String.singleton json.backslash ++ quote) ++ quote⟩⟩ sampleFset).Value
      ≠ "a" ++ String.singleton json.backslash ++ quote := by
  decide

/-- C2 (amended): for every present path literal whose raw text is a quote, a
text `s` and a quote, `path.value` is `s` with every leading and every trailing
quote of `s` removed as well; it is `s` itself exactly when `s` neither begins
nor ends with a quote -/
theorem quoted_value_is_trim (valuePos : token.Pos) (kind : token.Token) (s : String)
    (fset : token.FileSet) :
    (RawBasicLit.Dto ⟨some ⟨valuePos, kind, quote ++ s ++ quote⟩⟩ fset).Value
      = strings.Trim s quote ∧
    ((RawBasicLit.Dto ⟨some ⟨valuePos, kind, quote ++ s ++ quote⟩⟩ fset).Value = s ↔
      s.data.head? ≠ some quoteChar ∧ s.data.getLast? ≠ some quoteChar) := by
  have h : (RawBasicLit.Dto ⟨some ⟨valuePos, kind, quote ++ s ++ quote⟩⟩ fset).Value
      = strings.Trim s quote := trim_quoted s
  exact ⟨h, by rw [h]; exact trim_eq_self_iff s⟩

/-- C3: no escape decoding. For every raw literal text made of a quote, a text
`s` that neither begins nor ends with a quote, and a quote, `path.value` is
exactly `s`: backslashes and interior quotes stay as they are -/
theorem quoted_value_no_unescape (valuePos : token.Pos) (kind : token.Token) (s : String)
    (fset : token.FileSet) (hhead : s.data.head? ≠ some quoteChar)
    (hlast : s.data.getLast? ≠ some quoteChar) :
    (RawBasicLit.Dto ⟨some ⟨valuePos, kind, quote ++ s ++ quote⟩⟩ fset).Value = s := by
  have h : (RawBasicLit.Dto ⟨some ⟨valuePos, kind, quote ++ s ++ quote⟩⟩ fset).Value
      = strings.Trim s quote := trim_quoted s
  rw [h]
  exact (trim_eq_self_iff s).mpr ⟨hhead, hlast⟩

/-- C3 at its two examples: raw text `"example/pkg"` gives `example/pkg`, and
raw text `"a\"b"` gives the four characters `a`, backslash, quote, `b` -/
theorem quoted_value_no_unescape_witness :
    (RawBasicLit.Dto ⟨some ⟨28, token.Token.STRING, quote ++ "example/pkg" ++ quote⟩⟩
        sampleFset).Value = "example/pkg" ∧
    (RawBasicLit.Dto ⟨some ⟨28, token.Token.STRING,
        quote ++ ("a" ++ String.singleton json.backslash ++ quote ++ "b") ++ quote⟩⟩
        sampleFset).Value = "a" ++ String.singleton json.backslash ++ quote ++ "b" ∧
    ("a" ++ String.singleton json.backslash ++ quote ++ "b").data =
      [Char.ofNat 97, Char.ofNat 92, Char.ofNat 34, Char.ofNat 98] :=
  ⟨quoted_value_no_unescape 28 token.Token.STRING "example/pkg" sampleFset (by decide) (by decide),
   quoted_value_no_unescape 28 token.Token.STRING
     ("a" ++ String.singleton json.backslash ++ quote ++ "b") sampleFset (by decide) (by decide),
   by decide⟩

/-! ## Order of the output and failure of the sink -/

/-- C4: order preservation. On an encoder that holds no earlier error and a
sink that accepts every write of the run, `PassDto.ToJSON` returns no error,
`Encode` is invoked exactly once per import record and in traversal order, the
sink receives and accepts exactly the lines of the records of the files in
their order and of each file's imports in their order, and the number of lines
is the total number of imports -/
theorem order_preserved {ε : Type} (B : List (String × Option ε) → String → Option ε)
    (p : PassDto) (enc : json.Encoder (List (String × Option ε)) ε)
    (hfresh : enc.err = none)
    (hacc : acceptsAll B enc.w (p.records.map line) = true) :
    (p.ToJSON (recorder B) enc).2 = none ∧
    (p.ToJSON (recorder B) enc).1.calls = enc.calls ++ p.records ∧
    (p.ToJSON (recorder B) enc).1.w = enc.w ++ acceptedEntries (p.records.map line) ∧
    accepted (p.ToJSON (recorder B) enc).1.w = accepted enc.w ++ p.records.map line ∧
    p.records = (p.Files.toList.map (fun f => f.Imports.toList)).flatten ∧
    (p.records.map line).length = (p.Files.toList.map (fun f => f.Imports.len)).sum := by
  obtain ⟨log, err, calls⟩ := enc
  simp only at hfresh hacc
  subst hfresh
  rw [pass_toJSON_eq, file_loop_accepted B p.records log calls hacc]
  refine ⟨rfl, rfl, rfl, ?_, rfl, ?_⟩
  · rw [accepted_append, accepted_acceptedEntries]
  · simp [PassDto.records, Slice.len, List.length_flatten, Function.comp_def]

set_option maxRecDepth 100000 in
/-- C4 on two files: the lines of `f1.go` (A, B) come before the line of
`f2.go` (C), each record is encoded once, and three lines are written -/
theorem order_preserved_witness :
    acceptsAll neverFails [] (twoFilePass.records.map line) = true ∧
    (twoFilePass.ToJSON (recorder neverFails) (json.NewEncoder [])).2 = none ∧
    (twoFilePass.ToJSON (recorder neverFails) (json.NewEncoder [])).1.calls = [recA, recB, recC] ∧
    accepted (twoFilePass.ToJSON (recorder neverFails) (json.NewEncoder [])).1.w =
      [line recA, line recB, line recC] :=
  ⟨by decide,
   (order_preserved neverFails twoFilePass (json.NewEncoder []) rfl (by decide)).1,
   (order_preserved neverFails twoFilePass (json.NewEncoder []) rfl (by decide)).2.1,
   (order_preserved neverFails twoFilePass (json.NewEncoder []) rfl (by decide)).2.2.2.1⟩

/-- C5: failure propagation. On an encoder that holds no earlier error, let the
sink accept the first `N - 1` writes of the run and reject the `N`-th, the line
of record `r`, with error `e` (`1 ≤ N`; `N` is at most the number of imports
since the `N`-th record exists). Then `PassDto.ToJSON` returns `e`; the sink
has accepted exactly the lines of the first `N - 1` records, and its last
write is the rejected one; `Encode` was invoked on the first `N` records and
on none after; and `Config.Run` returns nil with the same error -/
theorem failure_propagates {ε : Type} (B : List (String × Option ε) → String → Option ε)
    (p : PassDto) (enc : json.Encoder (List (String × Option ε)) ε) (N : Nat)
    (r : ImportSpecDto) (e : ε)
    (hfresh : enc.err = none) (hN : 1 ≤ N)
    (hr : p.records[N - 1]? = some r)
    (hacc : acceptsAll B enc.w ((p.records.take (N - 1)).map line) = true)
    (hfail : B (enc.w ++ acceptedEntries ((p.records.take (N - 1)).map line)) (line r) = some e) :
    N ≤ p.records.length ∧
    (p.ToJSON (recorder B) enc).2 = some e ∧
    accepted (p.ToJSON (recorder B) enc).1.w =
      accepted enc.w ++ (p.records.take (N - 1)).map line ∧
    (p.ToJSON (recorder B) enc).1.w =
      enc.w ++ acceptedEntries ((p.records.take (N - 1)).map line) ++ [(line r, some e)] ∧
    (p.ToJSON (recorder B) enc).1.calls = enc.calls ++ p.records.take N ∧
    (∀ (c : Config (List (String × Option ε)) ε) (pass : Option analysis.Pass),
      c.Encoder = enc → RawPass.Dto ⟨pass⟩ = Except.ok p →
      ∃ enc1, c.Run (recorder B) pass = Except.ok (enc1, none, some e) ∧
        enc1 = (p.ToJSON (recorder B) enc).1) ∧
    (∀ (c : Config (List (String × Option ε)) ε) (pass : Option analysis.Pass)
      (enc1 : json.Encoder (List (String × Option ε)) ε) (first : AnyNil) (err : Option ε),
      c.Run (recorder B) pass = Except.ok (enc1, first, err) → first = none) := by
  obtain ⟨log, err, calls⟩ := enc
  simp only at hfresh hacc hfail
  subst hfresh
  have hlen : N - 1 < p.records.length := by
    by_contra hge
    rw [List.getElem?_eq_none (by omega)] at hr
    exact Option.noConfusion hr
  have hsplit := split_at_index p.records (N - 1) r hr
  have htake : p.records.take N = p.records.take (N - 1) ++ [r] := by
    have := take_succ_of_index p.records (N - 1) r hr
    rwa [Nat.sub_add_cancel hN] at this
  have hrun : p.ToJSON (recorder B) ⟨log, none, calls⟩ =
      (⟨log ++ acceptedEntries ((p.records.take (N - 1)).map line) ++ [(line r, some e)],
        some e, calls ++ p.records.take (N - 1) ++ [r]⟩, some e) := by
    rw [pass_toJSON_eq]
    conv_lhs => rw [hsplit]
    rw [file_loop_append, file_loop_accepted B _ log calls hacc]
    simp only
    rw [file_loop_failing B r _ _ _ e hfail]
  refine ⟨by omega, ?_, ?_, ?_, ?_, ?_, ?_⟩
  · rw [hrun]
  · rw [hrun]
    simp only
    rw [accepted_append, accepted_append, accepted_acceptedEntries]
    simp [accepted]
  · rw [hrun]
  · rw [hrun, htake]
    simp
  · intro c pass hc hdto
    refine ⟨_, ?_, rfl⟩
    simp only [Config.Run, hdto, Except.bind, hc]
    rw [hrun]
  · intro c pass enc1 first err hrun1
    simp only [Config.Run] at hrun1
    cases hd : RawPass.Dto ⟨pass⟩ with
    | error x =>
      rw [hd] at hrun1
      exact Except.noConfusion hrun1
    | ok dto =>
      rw [hd] at hrun1
      simp only [Except.bind, Except.ok.injEq, Prod.mk.injEq] at hrun1
      exact hrun1.2.1.symm

set_option maxRecDepth 100000 in
/-- C5 on two files with a sink that rejects the third write: the error comes
back, the two lines of `f1.go` are written and nothing else -/
theorem failure_propagates_witness :
    (1 ≤ 3 ∧ twoFilePass.records[3 - 1]? = some recC ∧
      acceptsAll failsOnThird [] ((twoFilePass.records.take (3 - 1)).map line) = true ∧
      failsOnThird ([] ++ acceptedEntries ((twoFilePass.records.take (3 - 1)).map line))
        (line recC) = some "disk full") ∧
    (twoFilePass.ToJSON (recorder failsOnThird) (json.NewEncoder [])).2 = some "disk full" ∧
    accepted (twoFilePass.ToJSON (recorder failsOnThird) (json.NewEncoder [])).1.w =
      [line recA, line recB] :=
  ⟨⟨by decide, by decide, by decide, by decide⟩,
   (failure_propagates failsOnThird twoFilePass (json.NewEncoder []) 3 recC "disk full" rfl
     (by decide) (by decide) (by decide) (by decide)).2.1,
   (failure_propagates failsOnThird twoFilePass (json.NewEncoder []) 3 recC "disk full" rfl
     (by decide) (by decide) (by decide) (by decide)).2.2.1⟩

/-! ## Absent nodes -/

/-- C6: absence is total and zero-valued. Each of the five node mappers, on an
absent node and with any position table, returns the zero record of its type
(the mappers are total functions: no nil pointer is dereferenced), and the
record of a present import spec has the zero record in the place of each
absent `Doc`, `Name`, `Path` or `Comment`; with no alias `name.name` is empty -/
theorem absent_nodes_map_to_zero (fset : token.FileSet) :
    RawComment.Dto ⟨none⟩ = CommentDto.zero ∧
    RawCommentGroup.Dto ⟨none⟩ = CommentGroupDto.zero ∧
    RawIdent.Dto ⟨none⟩ = IdentDto.zero ∧
    RawBasicLit.Dto ⟨none⟩ fset = BasicLitDto.zero ∧
    RawImportSpec.Dto ⟨none⟩ fset = ImportSpecDto.zero ∧
    (∀ (name : Option ast.Ident) (path : Option ast.BasicLit)
        (comment : Option ast.CommentGroup) (endPos : token.Pos),
      (RawImportSpec.Dto ⟨some ⟨none, name, path, comment, endPos⟩⟩ fset).Doc
        = CommentGroupDto.zero) ∧
    (∀ (doc : Option ast.CommentGroup) (path : Option ast.BasicLit)
        (comment : Option ast.CommentGroup) (endPos : token.Pos),
      (RawImportSpec.Dto ⟨some ⟨doc, none, path, comment, endPos⟩⟩ fset).Name = IdentDto.zero ∧
      (RawImportSpec.Dto ⟨some ⟨doc, none, path, comment, endPos⟩⟩ fset).Name.Name = "") ∧
    (∀ (doc : Option ast.CommentGroup) (name : Option ast.Ident)
        (comment : Option ast.CommentGroup) (endPos : token.Pos),
      (RawImportSpec.Dto ⟨some ⟨doc, name, none, comment, endPos⟩⟩ fset).Path
        = BasicLitDto.zero) ∧
    (∀ (doc : Option ast.CommentGroup) (name : Option ast.Ident)
        (path : Option ast.BasicLit) (endPos : token.Pos),
      (RawImportSpec.Dto ⟨some ⟨doc, name, path, none, endPos⟩⟩ fset).Comment
        = CommentGroupDto.zero) :=
  ⟨rfl, rfl, rfl, rfl, rfl, fun _ _ _ _ => rfl, fun _ _ _ _ => ⟨rfl, rfl⟩,
    fun _ _ _ _ => rfl, fun _ _ _ _ => rfl⟩

/-! ## Files without imports and file boundaries -/

/-- C7: for every present file with zero import declarations the file
extractor returns a `FileDto` without imports, and `FileDto.ToJSON` on it
leaves the encoder and its sink as they were (no `Encode`, no write) and
returns no error, for every sink and every encoder state -/
theorem no_imports_no_lines (file : ast.File) (fset : token.FileSet)
    (hzero : file.Imports.len = 0) :
    ∃ dto, RawFile.Dto ⟨some file⟩ fset = Except.ok dto ∧
      dto.Imports.toList = [] ∧ dto.Imports.len = 0 ∧
      ∀ (σ ε : Type) (W : io.Writer σ ε) (enc : json.Encoder σ ε),
        dto.ToJSON W enc = (enc, none) := by
  obtain ⟨dto, hdto, _, himports⟩ := file_dto_present file fset
  have hnil : file.Imports.toList = [] := List.length_eq_zero.mp hzero
  have hempty : dto.Imports.toList = [] := by rw [himports, hnil]; rfl
  refine ⟨dto, hdto, hempty, by simp [Slice.len, hempty], ?_⟩
  intro σ ε W enc
  simp [FileDto.ToJSON, hempty, FileDto.ToJSON.loop]

/-- C7 on a file without imports and a sink that rejects every write: the
encoder and the empty log of the sink come back as they were, with no error -/
theorem no_imports_no_lines_witness :
    noImportFile.Imports.len = 0 ∧
    ∃ dto, RawFile.Dto ⟨some noImportFile⟩ sampleFset = Except.ok dto ∧
      dto.Imports.toList = [] ∧
      dto.ToJSON (recorder alwaysFails) (json.NewEncoder []) = (json.NewEncoder [], none) := by
  obtain ⟨dto, hdto, hempty, _, hrun⟩ := no_imports_no_lines noImportFile sampleFset rfl
  exact ⟨rfl, dto, hdto, hempty, hrun _ _ (recorder alwaysFails) (json.NewEncoder [])⟩

/-- C8: file boundaries are not represented in the output. Two pass results
whose files' imports concatenate, in file order, to the same sequence of
records drive any sink from any encoder state through the same writes to the
same final state and return the same result, whatever the file names, the
grouping into files and the files without imports -/
theorem file_boundaries_invisible {σ ε : Type} (W : io.Writer σ ε) (enc : json.Encoder σ ε)
    (p q : PassDto) (hsame : p.records = q.records) :
    p.ToJSON W enc = q.ToJSON W enc := by
  rw [pass_toJSON_eq, pass_toJSON_eq, hsame]

set_option maxRecDepth 100000 in
/-- C8 on the three sample records grouped in two ways, against a sink that
rejects the third write -/
theorem file_boundaries_invisible_witness :
    twoFilePass.records = regroupedPass.records ∧
    twoFilePass.ToJSON (recorder failsOnThird) (json.NewEncoder []) =
      regroupedPass.ToJSON (recorder failsOnThird) (json.NewEncoder []) :=
  ⟨by decide,
   file_boundaries_invisible (recorder failsOnThird) (json.NewEncoder []) twoFilePass
     regroupedPass (by decide)⟩

/-! ## File and pass extractors -/

/-- C9: file extractor. For every present file and position table,
`RawFile.Dto` returns a `FileDto` whose name is the filename of the table's
resolution of the file's package position and whose imports are, in source
order and in the same number, the records `RawImportSpec.Dto` gives with the
same table for the file's import specs -/
theorem file_extractor_maps_imports (file : ast.File) (fset : token.FileSet) :
    ∃ dto, RawFile.Dto ⟨some file⟩ fset = Except.ok dto ∧
      dto.Name = (fset.Position file.Package).Filename ∧
      dto.Imports.len = file.Imports.len ∧
      dto.Imports.toList =
        file.Imports.toList.map (fun original => RawImportSpec.Dto ⟨original⟩ fset) ∧
      (∀ (i : Nat) (original : Option ast.ImportSpec),
        file.Imports.toList[i]? = some original →
        dto.Imports.toList[i]? = some (RawImportSpec.Dto ⟨original⟩ fset)) := by
  obtain ⟨dto, hdto, hname, himports⟩ := file_dto_present file fset
  refine ⟨dto, hdto, hname, by simp [Slice.len, himports], himports, ?_⟩
  intro i original hi
  rw [himports, List.getElem?_map, hi]
  rfl

/-- C10: pass extractor. For every present pass whose files are all present,
`RawPass.Dto` returns a `PassDto` with as many files as the pass, the `i`-th of
which is what `RawFile.Dto` returns for the `i`-th file of the pass with the
position table of the pass -/
theorem pass_extractor_maps_files (pass : analysis.Pass)
    (hpresent : ∀ f ∈ pass.Files.toList, f ≠ none) :
    ∃ dto, RawPass.Dto ⟨some pass⟩ = Except.ok dto ∧
      dto.Files.len = pass.Files.len ∧
      dto.Files.toList.map Except.ok =
        pass.Files.toList.map (fun original => RawFile.Dto ⟨original⟩ pass.Fset) ∧
      (∀ (i : Nat) (original : Option ast.File),
        pass.Files.toList[i]? = some original →
        ∃ fileDto, dto.Files.toList[i]? = some fileDto ∧
          RawFile.Dto ⟨original⟩ pass.Fset = Except.ok fileDto) := by
  have hok : ∀ x ∈ pass.Files.toList,
      ∃ y, (fun original => RawFile.Dto ⟨original⟩ pass.Fset) x = Except.ok y := by
    intro x hx
    cases x with
    | none => exact absurd rfl (hpresent none hx)
    | some file =>
      obtain ⟨dto, hdto, _⟩ := file_dto_present file pass.Fset
      exact ⟨dto, hdto⟩
  obtain ⟨r, hr, hlist⟩ := collect_map (fun original => RawFile.Dto ⟨original⟩ pass.Fset)
    pass.Files hok
  have hlen : r.toList.length = pass.Files.toList.length := by
    have := congrArg List.length hlist
    simpa using this
  refine ⟨⟨r⟩, ?_, hlen, hlist, ?_⟩
  · simp only [RawPass.Dto, RawPass.Files]
    rw [hr]
    rfl
  · intro i original hi
    have hget := congrArg (fun l => l[i]?) hlist
    simp only [List.getElem?_map, hi, Option.map_some'] at hget
    cases hri : r.toList[i]? with
    | none =>
      rw [hri] at hget
      exact Option.noConfusion hget
    | some fileDto =>
      rw [hri] at hget
      simp only [Option.map_some', Option.some.injEq] at hget
      exact ⟨fileDto, rfl, hget.symm⟩

/-- C10 on a pass of two present files -/
theorem pass_extractor_maps_files_witness :
    (∀ f ∈ samplePass.Files.toList, f ≠ none) ∧
    ∃ dto, RawPass.Dto ⟨some samplePass⟩ = Except.ok dto ∧
      dto.Files.len = samplePass.Files.len ∧
      dto.Files.toList.map Except.ok =
        samplePass.Files.toList.map (fun original => RawFile.Dto ⟨original⟩ samplePass.Fset) ∧
      (∀ (i : Nat) (original : Option ast.File),
        samplePass.Files.toList[i]? = some original →
        ∃ fileDto, dto.Files.toList[i]? = some fileDto ∧
          RawFile.Dto ⟨original⟩ samplePass.Fset = Except.ok fileDto) :=
  ⟨by decide, pass_extractor_maps_files samplePass (by decide)⟩

/-! ## End-to-end example -/

set_option maxRecDepth 100000 in
/-- C11 (as stated, refuted): for the pass of the one file `f.go` with the
single import `import foo "example.com/foo" // trailing` on line 3 (literal at
offset 33, column 14, comment at 52) exactly one line is written, and it opens
with `"doc":` followed by `"list":null`, not by `"list":[]` -/
theorem end_to_end_doc_list_is_null_example :
    linesOfRun neverFails (some (examplePassAt sampleFset 1 30 34 52 0)) =
      some ["\x7b\"doc\":\x7b\"list\":null\x7d,\"name\":\x7b\"name\":\"foo\"\x7d,\"path\":\x7b\"value_pos\":\x7b\"filename\":\"f.go\",\"offset\":33,\"line\":3,\"column\":14\x7d,\"kind\":\"STRING\",\"value\":\"example.com/foo\"\x7d,\"comment\":\x7b\"list\":[\x7b\"slash\":52,\"text\":\"// trailing\"\x7d]\x7d\x7d\n"] ∧
    linesOfRun neverFails (some (examplePassAt sampleFset 1 30 34 52 0)) ≠
      some ["\x7b\"doc\":\x7b\"list\":[]\x7d,\"name\":\x7b\"name\":\"foo\"\x7d,\"path\":\x7b\"value_pos\":\x7b\"filename\":\"f.go\",\"offset\":33,\"line\":3,\"column\":14\x7d,\"kind\":\"STRING\",\"value\":\"example.com/foo\"\x7d,\"comment\":\x7b\"list\":[\x7b\"slash\":52,\"text\":\"// trailing\"\x7d]\x7d\x7d\n"] := by
  decide

/-- C11 (amended): for a pass of one file `f.go` that holds the single import
spec with alias `foo`, path literal of kind STRING with raw text
`"example.com/foo"` resolved to line 3, offset `o`, column `c`, no doc group
and one trailing comment `// trailing` at position `slash`, a run on a sink
that accepts the write gets exactly one line written: the JSON object with the
members doc, name, path, comment in this order, where doc is `"list":null` -/
theorem end_to_end_line {ε : Type} (fset : token.FileSet)
    (package namePos valuePos slash endPos o c : Int)
    (hfile : (fset.Position package).Filename = "f.go")
    (hpos : fset.Position valuePos = ⟨"f.go", o, 3, c⟩) :
    linesOfRun (fun _ _ => (none : Option ε))
        (some (examplePassAt fset package namePos valuePos slash endPos)) =
      some ["\x7b\"doc\":\x7b\"list\":null\x7d,\"name\":\x7b\"name\":\"foo\"\x7d,\"path\":\x7b\"value_pos\":\x7b\"filename\":\"f.go\",\"offset\":" ++ json.marshalInt o ++ ",\"line\":3,\"column\":" ++ json.marshalInt c ++ "\x7d,\"kind\":\"STRING\",\"value\":\"example.com/foo\"\x7d,\"comment\":\x7b\"list\":[\x7b\"slash\":" ++ json.marshalInt slash ++ ",\"text\":\"// trailing\"\x7d]\x7d\x7d\n"] := by
  have hdto := example_pass_dto fset package namePos valuePos slash endPos o c hfile hpos
  have hline := example_line slash o c
  simp only [linesOfRun, Config.Run, hdto, Except.bind, PassDto.ToJSON, PassDto.ToJSON.loop,
    FileDto.ToJSON, FileDto.ToJSON.loop, Slice.toList, json.NewEncoder]
  rw [encode_accepted _ _ _ _ rfl]
  simp only [accepted, hline]
  rfl

set_option maxRecDepth 100000 in
/-- C11 (amended) on the sample table: literal at offset 33, column 14 of line
3 of `f.go`, comment at 52 -/
theorem end_to_end_line_witness :
    ((sampleFset.Position 1).Filename = "f.go" ∧
      sampleFset.Position 34 = ⟨"f.go", 33, 3, 14⟩) ∧
    linesOfRun (fun _ _ => (none : Option String))
        (some (examplePassAt sampleFset 1 30 34 52 0)) =
      some ["\x7b\"doc\":\x7b\"list\":null\x7d,\"name\":\x7b\"name\":\"foo\"\x7d,\"path\":\x7b\"value_pos\":\x7b\"filename\":\"f.go\",\"offset\":" ++ json.marshalInt 33 ++ ",\"line\":3,\"column\":" ++ json.marshalInt 14 ++ "\x7d,\"kind\":\"STRING\",\"value\":\"example.com/foo\"\x7d,\"comment\":\x7b\"list\":[\x7b\"slash\":" ++ json.marshalInt 52 ++ ",\"text\":\"// trailing\"\x7d]\x7d\x7d\n"] :=
  ⟨⟨rfl, by decide⟩, end_to_end_line sampleFset 1 30 34 52 0 33 14 rfl (by decide)⟩

/-! ## Determinism -/

/-- C12: determinism. Two runs of extraction over the same pass (tree and
position table), each on a fresh encoder over a fresh sink, the two sinks of
the same behaviour: the pass result `RawPass.Dto` yields is one and the same;
either both runs panic alike, or both return nil with the same error after
calling `Encode` on the same records in the same order, with the sinks left in
related states; and on a recording sink the data written are, write by write,
the lines of those records, so the two outputs are identical byte for byte -/
theorem extraction_deterministic {σ τ ε : Type} (W1 : io.Writer σ ε) (W2 : io.Writer τ ε)
    (R : σ → τ → Prop) (hsame : sameBehaviour W1 W2 R) (s : σ) (t : τ) (hfresh : R s t)
    (pass : Option analysis.Pass) (name1 doc1 name2 doc2 : String) :
    (∀ dto1 dto2 : PassDto, RawPass.Dto ⟨pass⟩ = Except.ok dto1 →
      RawPass.Dto ⟨pass⟩ = Except.ok dto2 → dto1 = dto2) ∧
    ((∃ p, Config.Run ⟨json.NewEncoder s, name1, doc1⟩ W1 pass = Except.error p ∧
        Config.Run ⟨json.NewEncoder t, name2, doc2⟩ W2 pass = Except.error p) ∨
      (∃ enc1 enc2 result,
        Config.Run ⟨json.NewEncoder s, name1, doc1⟩ W1 pass = Except.ok (enc1, none, result) ∧
        Config.Run ⟨json.NewEncoder t, name2, doc2⟩ W2 pass = Except.ok (enc2, none, result) ∧
        enc1.calls = enc2.calls ∧ enc1.err = enc2.err ∧ R enc1.w enc2.w)) ∧
    (∀ (B : List (String × Option ε) → String → Option ε)
        (enc : json.Encoder (List (String × Option ε)) ε) (first : AnyNil) (result : Option ε),
      Config.Run ⟨json.NewEncoder [], name1, doc1⟩ (recorder B) pass =
        Except.ok (enc, first, result) →
      enc.w.map Prod.fst = enc.calls.map line) := by
  refine ⟨?_, ?_, ?_⟩
  · intro dto1 dto2 h1 h2
    rw [h1] at h2
    exact Except.ok.inj h2
  · cases hd : RawPass.Dto ⟨pass⟩ with
    | error p =>
      left
      exact ⟨p, by simp only [Config.Run, hd, Except.bind],
        by simp only [Config.Run, hd, Except.bind]⟩
    | ok dto =>
      right
      obtain ⟨hres, hcalls, herr, hrel⟩ :=
        file_loop_same_behaviour W1 W2 R hsame dto.records s t [] hfresh
      refine ⟨(dto.ToJSON W1 (json.NewEncoder s)).1, (dto.ToJSON W2 (json.NewEncoder t)).1,
        (dto.ToJSON W1 (json.NewEncoder s)).2, ?_, ?_, ?_, ?_, ?_⟩
      · simp only [Config.Run, hd, Except.bind]
      · simp only [Config.Run, hd, Except.bind]
        rw [pass_toJSON_eq, pass_toJSON_eq]
        simp only [json.NewEncoder]
        rw [hres]
      · rw [pass_toJSON_eq, pass_toJSON_eq]
        exact hcalls
      · rw [pass_toJSON_eq, pass_toJSON_eq]
        exact herr
      · rw [pass_toJSON_eq, pass_toJSON_eq]
        exact hrel
  · intro B enc first result hrun
    cases hd : RawPass.Dto ⟨pass⟩ with
    | error p =>
      simp only [Config.Run, hd, Except.bind] at hrun
      exact Except.noConfusion hrun
    | ok dto =>
      simp only [Config.Run, hd, Except.bind, Except.ok.injEq, Prod.mk.injEq] at hrun
      rw [← hrun.1, pass_toJSON_eq]
      exact file_loop_log_lines B dto.records [] [] rfl

/-- C12 on the sample pass, run once against a recording sink and once against
a counting sink, both rejecting the second write, under different names -/
theorem extraction_deterministic_witness :
    (sameBehaviour (recorder failsOnSecond) countingSink (fun log n => log.length = n) ∧
      ([] : List (String × Option String)).length = 0) ∧
    ((∃ p, Config.Run ⟨json.NewEncoder [], "first", "run"⟩ (recorder failsOnSecond)
          (some samplePass) = Except.error p ∧
        Config.Run ⟨json.NewEncoder 0, "second", "run"⟩ countingSink (some samplePass) =
          Except.error p) ∨
      (∃ enc1 enc2 result,
        Config.Run ⟨json.NewEncoder [], "first", "run"⟩ (recorder failsOnSecond)
          (some samplePass) = Except.ok (enc1, none, result) ∧
        Config.Run ⟨json.NewEncoder 0, "second", "run"⟩ countingSink (some samplePass) =
          Except.ok (enc2, none, result) ∧
        enc1.calls = enc2.calls ∧ enc1.err = enc2.err ∧ enc1.w.length = enc2.w)) :=
  ⟨⟨recorder_counting_same_behaviour, rfl⟩,
   (extraction_deterministic (recorder failsOnSecond) countingSink (fun log n => log.length = n)
     recorder_counting_same_behaviour [] 0 rfl (some samplePass) "first" "run" "second"
     "run").2.1⟩

/-! ## Comment groups -/

/-- C13: for every present comment group, `RawCommentGroup.Dto` returns a
non-nil list of the same length as the group's comment list, whose `i`-th
element carries the slash position and the text of the `i`-th comment, in
source order; an absent comment at index `i` gives the zero record (slash 0,
empty text) at index `i` -/
theorem comment_group_maps_comments (group : ast.CommentGroup) :
    (RawCommentGroup.Dto ⟨some group⟩).List =
      Slice.mk (group.List.toList.map (fun c => RawComment.Dto ⟨c⟩)) ∧
    (RawCommentGroup.Dto ⟨some group⟩).List.len = group.List.len ∧
    (∀ (i : Nat) (comment : ast.Comment), group.List.toList[i]? = some (some comment) →
      (RawCommentGroup.Dto ⟨some group⟩).List.toList[i]? =
        some ⟨comment.Slash, comment.Text⟩) ∧
    (∀ (i : Nat), group.List.toList[i]? = some none →
      (RawCommentGroup.Dto ⟨some group⟩).List.toList[i]? = some ⟨0, ""⟩) := by
  have hlist : (RawCommentGroup.Dto ⟨some group⟩).List =
      Slice.mk (group.List.toList.map (fun c => RawComment.Dto ⟨c⟩)) := by
    simp only [RawCommentGroup.Dto, Slice.make0]
    rw [comment_loop]
    rfl
  refine ⟨hlist, ?_, ?_, ?_⟩
  · rw [hlist]
    simp [Slice.len, Slice.toList]
  · intro i comment hi
    have hmk : (Slice.mk (group.List.toList.map (fun c => RawComment.Dto ⟨c⟩))).toList =
        group.List.toList.map (fun c => RawComment.Dto ⟨c⟩) := rfl
    rw [hlist, hmk, List.getElem?_map, hi]
    rfl
  · intro i hi
    have hmk : (Slice.mk (group.List.toList.map (fun c => RawComment.Dto ⟨c⟩))).toList =
        group.List.toList.map (fun c => RawComment.Dto ⟨c⟩) := rfl
    rw [hlist, hmk, List.getElem?_map, hi]
    rfl

/-- C13 on a group of three comments whose second is absent -/
theorem comment_group_maps_comments_witness :
    (RawCommentGroup.Dto ⟨some gappedGroup⟩).List =
      Slice.mk [⟨40, "// one"⟩, ⟨0, ""⟩, ⟨60, "/* three */"⟩] :=
  (comment_group_maps_comments gappedGroup).1

/-! ## Configuration -/

/-- C14: configuration is descriptive only. `WithWriter` returns a `Config`
with the receiver's `Name` and `Doc` and a new encoder on the given writer
(the receiver is a value and stays as it was); `ToAnalyzer` yields an analyzer
with the `Name` and `Doc` of the `Config` whose `Run` is `Config.Run`; what
`Config.Run` encodes, writes and returns does not depend on `Name` or `Doc`;
and `ConfigDefault` has the name `import_details2jsonl`, the doc
`Import detail extractor` and an encoder on the discard writer, which accepts
every write -/
theorem config_is_descriptive {σ τ ε : Type} (c : Config σ ε) (w : τ) (W : io.Writer σ ε)
    (pass : Option analysis.Pass) :
    (c.WithWriter w).Name = c.Name ∧
    (c.WithWriter w).Doc = c.Doc ∧
    ((c.WithWriter w).Encoder : json.Encoder τ ε) = json.NewEncoder w ∧
    c.ToAnalyzer.Name = c.Name ∧
    c.ToAnalyzer.Doc = c.Doc ∧
    c.ToAnalyzer.Run W pass = c.Run W pass ∧
    (∀ name doc : String, Config.Run ⟨c.Encoder, name, doc⟩ W pass = c.Run W pass) ∧
    (ConfigDefault : Config Unit ε).Name = "import_details2jsonl" ∧
    (ConfigDefault : Config Unit ε).Doc = "Import detail extractor" ∧
    (ConfigDefault : Config Unit ε).Encoder = json.NewEncoder () ∧
    (∀ data : String, (WriterDefault : io.Writer Unit ε).Write () data = ((), none)) ∧
    (∀ dto : PassDto, RawPass.Dto ⟨pass⟩ = Except.ok dto →
      ∃ enc, (ConfigDefault : Config Unit ε).Run WriterDefault pass = Except.ok (enc, none, none) ∧
        enc.w = () ∧ enc.calls = dto.records) := by
  refine ⟨rfl, rfl, rfl, rfl, rfl, rfl, fun _ _ => rfl, rfl, rfl, rfl, fun _ => rfl, ?_⟩
  intro dto hdto
  have hloop : ∀ (recs calls : List ImportSpecDto),
      FileDto.ToJSON.loop (WriterDefault : io.Writer Unit ε) recs ⟨(), none, calls⟩ =
        (⟨(), none, calls ++ recs⟩, none) := by
    intro recs
    induction recs with
    | nil => intro calls; simp [FileDto.ToJSON.loop]
    | cons x recs ih =>
      intro calls
      simp only [FileDto.ToJSON.loop, json.Encoder.Encode, WriterDefault, io.Discard]
      have := ih (calls ++ [x])
      simp only [WriterDefault, io.Discard] at this
      rw [this]
      simp
  refine ⟨⟨(), none, dto.records⟩, ?_, rfl, rfl⟩
  simp only [Config.Run, hdto, Except.bind, ConfigDefault, json.NewEncoder]
  rw [pass_toJSON_eq, hloop]
  simp

/-! ## Invariants of the path value -/

/-- C15: for every present path literal, whatever its raw text, `path.value`
neither begins nor ends with a double quote, is a contiguous part of the raw
text, and is a fixed point of the stripping (as a text and as the raw text of
a literal); any number of quotes before and after a text are all removed;
and a raw text enclosed in backquotes comes back unchanged, backquotes
included -/
theorem path_value_invariants (valuePos : token.Pos) (kind : token.Token) (raw : String)
    (fset : token.FileSet) :
    (RawBasicLit.Dto ⟨some ⟨valuePos, kind, raw⟩⟩ fset).Value.data.head? ≠ some quoteChar ∧
    (RawBasicLit.Dto ⟨some ⟨valuePos, kind, raw⟩⟩ fset).Value.data.getLast? ≠ some quoteChar ∧
    (RawBasicLit.Dto ⟨some ⟨valuePos, kind, raw⟩⟩ fset).Value.data <:+: raw.data ∧
    strings.Trim (RawBasicLit.Dto ⟨some ⟨valuePos, kind, raw⟩⟩ fset).Value quote =
      (RawBasicLit.Dto ⟨some ⟨valuePos, kind, raw⟩⟩ fset).Value ∧
    (RawBasicLit.Dto ⟨some ⟨valuePos, kind,
        (RawBasicLit.Dto ⟨some ⟨valuePos, kind, raw⟩⟩ fset).Value⟩⟩ fset).Value =
      (RawBasicLit.Dto ⟨some ⟨valuePos, kind, raw⟩⟩ fset).Value ∧
    (∀ (m n : Nat),
      (RawBasicLit.Dto ⟨some ⟨valuePos, kind, quotes m ++ raw ++ quotes n⟩⟩ fset).Value =
        (RawBasicLit.Dto ⟨some ⟨valuePos, kind, raw⟩⟩ fset).Value) ∧
    (RawBasicLit.Dto ⟨some ⟨valuePos, kind, backquote ++ raw ++ backquote⟩⟩ fset).Value =
      backquote ++ raw ++ backquote := by
  have hval : ∀ text : String,
      (RawBasicLit.Dto ⟨some ⟨valuePos, kind, text⟩⟩ fset).Value = strings.Trim text quote :=
    fun _ => rfl
  have hhead : (strings.Trim raw quote).data.head? ≠ some quoteChar := by
    intro h
    have := trimmed_head_not_cut (fun c => decide (c ∈ quote.data)) raw.data quoteChar
      (by rw [← trim_data]; exact h)
    exact absurd this (by decide)
  have hlast : (strings.Trim raw quote).data.getLast? ≠ some quoteChar := by
    intro h
    have := trimmed_last_not_cut (fun c => decide (c ∈ quote.data)) raw.data quoteChar
      (by rw [← trim_data]; exact h)
    exact absurd this (by decide)
  have hfix : strings.Trim (strings.Trim raw quote) quote = strings.Trim raw quote :=
    (trim_eq_self_iff _).mpr ⟨hhead, hlast⟩
  refine ⟨?_, ?_, ?_, ?_, ?_, ?_, ?_⟩
  · rw [hval]; exact hhead
  · rw [hval]; exact hlast
  · rw [hval, trim_data]
    exact trimmed_infix _ _
  · rw [hval]; exact hfix
  · rw [hval, hval]; exact hfix
  · intro m n
    rw [hval, hval]
    apply String.ext
    rw [trim_data, trim_data]
    have hdata : (quotes m ++ raw ++ quotes n).data =
        List.replicate m quoteChar ++ raw.data ++ List.replicate n quoteChar := by
      simp [String.data_append, quotes]
    rw [hdata]
    exact trimmed_replicate _ quoteChar (by decide) raw.data m n
  · rw [hval]
    apply (trim_eq_self_iff _).mpr
    constructor
    · simp [String.data_append, backquote, String.singleton, quoteChar]
    · have hdata : (backquote ++ raw ++ backquote).data =
          (Char.ofNat 96 :: raw.data) ++ [Char.ofNat 96] := by
        simp [String.data_append, backquote, String.singleton]
      rw [hdata, List.getLast?_concat]
      decide

/-! ## Absent passes and absent files -/

/-- C16: an absent pass is handled without failure. `RawPass.Files` of a nil
pass is the nil slice, of length zero; `RawPass.Dto` of a nil pass returns a
`PassDto` without files, although the per-file mapper it hands to `IterMap`
would panic on `p.Pass.Fset` if it were invoked on any file; and `Config.Run`
on a nil pass returns nil and no error and leaves the encoder as it was (no
`Encode`, no write), for every sink and encoder state -/
theorem nil_pass_is_handled {σ ε : Type} (c : Config σ ε) (W : io.Writer σ ε) :
    RawPass.Files ⟨none⟩ = Slice.null ∧
    (RawPass.Files ⟨none⟩).len = 0 ∧
    RawPass.Dto ⟨none⟩ = Except.ok ⟨Slice.null⟩ ∧
    (∀ p : RawPass, RawPass.Dto p =
      (slices.Collect (IterMap (slices.Values p.Files) p.fileMapper).Raw).bind
        (fun files => Except.ok ⟨files⟩)) ∧
    (∀ original : Option ast.File,
      RawPass.fileMapper ⟨none⟩ original = Except.error Panic.nilDereference) ∧
    c.Run W none = Except.ok (c.Encoder, none, none) :=
  ⟨rfl, rfl, rfl, fun _ => rfl, fun _ => rfl, rfl⟩

/-- C17: the file extractor is not total on absence. With any position table,
`RawFile.Name` and `RawFile.Dto` return a result exactly when the file is
present; `RawFile.Imports` of a nil file is the nil slice, without elements,
but `RawFile.Name` of a nil file panics on the nil pointer, and so does
`RawFile.Dto`; hence `RawPass.Dto` panics on every pass whose file list holds
a nil file, instead of yielding a zero `FileDto` -/
theorem file_extractor_needs_file (f : RawFile) (fset : token.FileSet) :
    ((∃ name, f.Name fset = Except.ok name) ↔ f.File ≠ none) ∧
    ((∃ dto, f.Dto fset = Except.ok dto) ↔ f.File ≠ none) ∧
    RawFile.Imports ⟨none⟩ = Slice.null ∧
    (RawFile.Imports ⟨none⟩).toList = [] ∧
    RawFile.Name ⟨none⟩ fset = Except.error Panic.nilDereference ∧
    RawFile.Dto ⟨none⟩ fset = Except.error Panic.nilDereference ∧
    (∀ pass : analysis.Pass, none ∈ pass.Files.toList →
      RawPass.Dto ⟨some pass⟩ = Except.error Panic.nilDereference) := by
  refine ⟨?_, ?_, rfl, rfl, rfl, rfl, ?_⟩
  · obtain ⟨file⟩ := f
    cases file with
    | none =>
      constructor
      · rintro ⟨name, h⟩
        exact Except.noConfusion h
      · intro h
        exact absurd rfl h
    | some file =>
      exact ⟨fun _ => Option.noConfusion, fun _ => ⟨_, rfl⟩⟩
  · obtain ⟨file⟩ := f
    cases file with
    | none =>
      constructor
      · rintro ⟨dto, h⟩
        exact Except.noConfusion h
      · intro h
        exact absurd rfl h
    | some file =>
      obtain ⟨dto, hdto, _⟩ := file_dto_present file fset
      exact ⟨fun _ => Option.noConfusion, fun _ => ⟨dto, hdto⟩⟩
  · intro pass hnil
    obtain ⟨p, hp⟩ := collect_loop_panics
      (fun original => RawFile.Dto ⟨original⟩ pass.Fset) pass.Files.toList
      ⟨none, hnil, Panic.nilDereference, rfl⟩ Slice.null
    cases p
    have hcollect : slices.Collect (IterMap (slices.Values pass.Files)
        (fun original => RawFile.Dto ⟨original⟩ pass.Fset)).Raw =
        Except.error Panic.nilDereference := hp
    simp only [RawPass.Dto, RawPass.Files]
    rw [hcollect]
    rfl

/-- C17 on a pass whose second file is absent: the run panics although the
first file is present -/
theorem file_extractor_needs_file_witness :
    none ∈ nilFilePass.Files.toList ∧
    RawPass.Dto ⟨some nilFilePass⟩ = Except.error Panic.nilDereference :=
  ⟨by decide, (file_extractor_needs_file ⟨none⟩ sampleFset).2.2.2.2.2.2 nilFilePass (by decide)⟩

end Imports2jsonl
